import Mathlib

/-!
Formal model of the `md-img-uri` command line tool (file `src/md_img_uri/cli.py`).

The tool converts an image file into a Markdown line whose source is an inline
data URI.  This file gives a shallow embedding of the core functions
(`wrap_base64`, `get_svg_width`, `scale_svg`, `scale_raster`, `embed_image`)
and proves or refutes the specification claims about them.

Modelling conventions:
* Strings are `List Char`; bytes are `List Nat`.
* Python regular-expression searches are embedded pattern by pattern: each
  concrete pattern used by the code gets a dedicated matcher with the
  POSIX-backtracking semantics of `re` specialised to that pattern (the
  character classes involved are disjoint, so greedy matching is
  deterministic; the only genuine backtracking point, the greedy
  bracket-free span in the substitution patterns, is embedded by scanning
  candidate split points from longest to shortest).
* Python `float` values produced by parsing decimal numerals are modelled as
  exact decimal fractions, a pair of mantissa and exponent with value
  mantissa divided by ten to the exponent.  Arithmetic on them is exact
  rational arithmetic; `int(...)` on a non-negative value is floor.
* Exceptions are modelled with `Option` (`none` = the call raises) or
  `Except` at the orchestrator level.
* The Pillow image library is an external collaborator: decoding and
  resize-plus-reencode are abstract functions supplied through a
  `RasterOps` record; decoding may fail (`Option`).
-/

namespace MdImgUri

set_option maxRecDepth 40000

/-- The six ASCII whitespace characters matched by the regex class for
whitespace (the markup handled here is ASCII). -/
def isWsC (c : Char) : Bool :=
  c = ' ' || c = '\t' || c = '\n' || c = '\r' || c = Char.ofNat 11 || c = Char.ofNat 12

/-- A single or double quotation mark, the character class for quotes. -/
def isQuoteC (c : Char) : Bool := c = '"' || c = '\''

/-- The character class of digits and the full stop, used by the viewBox and
attribute-value patterns. -/
def isDotDigit (c : Char) : Bool := c.isDigit || c = '.'

/-- Match a literal character sequence at the start of `s`; on success return
the rest of `s`.  Characters are inspected one by one, so a failure is
decided as soon as a concrete character differs. -/
def matchLit (lit : List Char) (s : List Char) : Option (List Char) :=
  match lit, s with
  | [], s => some s
  | _ :: _, [] => none
  | l :: lit, c :: s => if c = l then matchLit lit s else none

/-- Greedily take a non-empty run of characters of a class; on success return
the run and the rest. -/
def grabClass (p : Char → Bool) (s : List Char) : Option (List Char × List Char) :=
  let g := s.takeWhile p
  if g.length = 0 then none else some (g, s.dropWhile p)

/-- Numeric value of a digit string, most significant digit first. -/
def digitsVal (s : List Char) : ℕ :=
  s.foldl (fun a c => a * 10 + (c.toNat - 48)) 0

/-- An exact decimal fraction: value `mant / 10 ^ exp`, the exact reading of
a captured decimal numeral.  The Python float it denotes is obtained by
binary64 rounding, `pyFloatOfDec` below. -/
structure Dec where
  mant : ℕ
  exp : ℕ
deriving DecidableEq

/-- Split a character list on every occurrence of a separator character,
like the Python string `split` method: the empty list yields one empty
field. -/
def splitOnC (sep : Char) : List Char → List (List Char)
  | [] => [[]]
  | c :: rest =>
    if c = sep then [] :: splitOnC sep rest
    else
      match splitOnC sep rest with
      | [] => [[c]]
      | l :: ls => (c :: l) :: ls

/-- The Python `float` constructor on the numeral strings captured by the
patterns here: accepts digit strings with at most one full stop and at least
one digit, rejects anything else (the code can capture shapes such as
`1.2.3`, on which `float` raises `ValueError`). -/
def parseFloat? (s : List Char) : Option Dec :=
  match splitOnC '.' s with
  | [a] =>
    if a.length ≠ 0 ∧ a.all Char.isDigit then some ⟨digitsVal a, 0⟩ else none
  | [a, b] =>
    if (a.length + b.length ≠ 0) ∧ a.all Char.isDigit ∧ b.all Char.isDigit then
      some ⟨digitsVal a * 10 ^ b.length + digitsVal b, b.length⟩
    else none
  | _ => none

/-- Exact truncation of a decimal fraction to a natural number.  This is NOT
what Python computes: `int(float(s))` first rounds the decimal to the
nearest binary64 value and truncates that (see `pyInt?` below); this exact
version is kept only to contrast the two in theorems. -/
def Dec.trunc (d : Dec) : ℕ := d.mant / 10 ^ d.exp

/-! ## IEEE 754 binary64, the model of Python floats

Python floats are IEEE 754 binary64 values.  Every finite non-negative
double is `m * 2 ^ p` with `m < 2 ^ 53`; arithmetic rounds the exact result
to the nearest representable value, ties to even mantissa, overflowing to
infinity at `2 ^ 1024`; the smallest subnormal grid step is `2 ^ (-1074)`.
All values reached by this program are non-negative, so the model carries
non-negative finite values, infinity, and NaN. -/

/-- A non-negative Python float. -/
inductive PyFloat where
  | fin (m : ℕ) (p : ℤ)
  | inf
  | nan
deriving DecidableEq

/-- Fuel-driven bit length (number of binary digits); exact for numbers
below `2 ^ fuel`. -/
def bitlenGo : ℕ → ℕ → ℕ
  | 0, _ => 0
  | f + 1, n => if n = 0 then 0 else bitlenGo f (n / 2) + 1

/-- Round the exact non-negative rational `num / den` to the nearest
binary64 value, ties to even, overflowing to infinity: the grid step is
`2 ^ (e - 52)` for a value of binary exponent `e`, floored at the subnormal
step `2 ^ (-1074)`.  The binary exponent is read off the bit length of the
value scaled by `2 ^ 1075`, which is below `2 ^ 2099` whenever the
early overflow test passes. -/
def roundRat (num den : ℕ) : PyFloat :=
  if den = 0 then .inf
  else if num = 0 then .fin 0 0
  else if den * 2 ^ 1024 ≤ num then .inf
  else
    let Q := num * 2 ^ 1075 / den
    let e : ℤ := (bitlenGo 2100 Q : ℤ) - 1076
    let p : ℤ := max (e - 52) (-1074)
    let A := num * 2 ^ (-p).toNat
    let B := den * 2 ^ p.toNat
    let m0 := A / B
    let r := A % B
    let m := if 2 * r < B then m0
             else if B < 2 * r then m0 + 1
             else if m0 % 2 = 0 then m0 else m0 + 1
    if 0 ≤ p ∧ 2 ^ 1024 ≤ m * 2 ^ p.toNat then .inf
    else .fin m p

/-- The value of `float(numeral)` for a parsed decimal numeral: CPython
parses decimal literals with correct rounding, returning infinity for
numerals beyond the binary64 range (no exception at this point). -/
def pyFloatOfDec (d : Dec) : PyFloat := roundRat d.mant (10 ^ d.exp)

/-- Python `int(x)` on a non-negative float: truncation (equal to the floor
here), raising `OverflowError` on infinity and `ValueError` on NaN, both
modelled by `none`. -/
def pyInt? : PyFloat → Option ℕ
  | .fin m p => some (if 0 ≤ p then m * 2 ^ p.toNat else m / 2 ^ (-p).toNat)
  | .inf => none
  | .nan => none

/-- Python float multiplication: the exact product, rounded; infinity times
zero is NaN. -/
def pyMulF : PyFloat → PyFloat → PyFloat
  | .nan, _ => .nan
  | _, .nan => .nan
  | .inf, .fin 0 _ => .nan
  | .fin 0 _, .inf => .nan
  | .inf, _ => .inf
  | _, .inf => .inf
  | .fin m1 p1, .fin m2 p2 =>
      roundRat (m1 * m2 * 2 ^ (p1 + p2).toNat) (2 ^ (-(p1 + p2)).toNat)

/-- Python float division: `ZeroDivisionError` (modelled by `none`) for a
zero denominator, checked first; otherwise the exact quotient, rounded,
with the usual infinity and NaN propagation. -/
def pyDivF : PyFloat → PyFloat → Option PyFloat
  | _, .fin 0 _ => none
  | .nan, _ => some .nan
  | _, .nan => some .nan
  | .inf, .inf => some .nan
  | .inf, .fin _ _ => some .inf
  | .fin _ _, .inf => some (.fin 0 0)
  | .fin m1 p1, .fin m2 p2 =>
      some (roundRat (m1 * 2 ^ (p1 - p2).toNat) (m2 * 2 ^ (p2 - p1).toNat))

/-- CPython conversion of a non-negative int to a float (as in
`max_width * aspect_ratio`): correctly rounded, raising `OverflowError`
(modelled by `none`) when the integer is too large for a double. -/
def pyOfNatF (n : ℕ) : Option PyFloat :=
  match roundRat n 1 with
  | .inf => none
  | f => some f

/-- Python true division of two non-negative ints (as in
`img.height / img.width`): `ZeroDivisionError` for a zero divisor and
`OverflowError` when the correctly rounded quotient does not fit a double,
both modelled by `none`. -/
def pyDivNN (a b : ℕ) : Option PyFloat :=
  if b = 0 then none
  else
    match roundRat a b with
    | .inf => none
    | f => some f

/-! ## Base64 line wrapping (`wrap_base64`) -/

/-- Fuel-driven worker for `chunksOf`; the fuel is at least the length of the
string, so the fuel-exhausted branch is never reached in `chunksOf`. -/
def chunksGo (w : ℕ) : ℕ → List Char → List (List Char)
  | 0, _ => []
  | _ + 1, [] => []
  | f + 1, c :: rest => (c :: rest.take (w - 1)) :: chunksGo w f (rest.drop (w - 1))

/-- The chunk list produced by
`[encoded[i : i + width] for i in range(0, len(encoded), width)]`
for a positive width (for width zero the Python `range` raises, handled in
`wrap_base64`). -/
def chunksOf (w : ℕ) (s : List Char) : List (List Char) :=
  chunksGo w s.length s

/-- The Python `"\n".join` on a list of lines. -/
def joinNl : List (List Char) → List Char
  | [] => []
  | [l] => l
  | l :: ls => l ++ '\n' :: joinNl ls

/-- Model of `wrap_base64(encoded, width)`: split into lines of `width` characters and
join with newlines.  Width zero makes the Python `range` raise `ValueError`,
modelled by `none`. -/
def wrap_base64 (encoded : List Char) (width : ℕ) : Option (List Char) :=
  match width with
  | 0 => none
  | w + 1 => some (joinNl (chunksOf (w + 1) encoded))

/-- Splitting on the newline character, the Python `result.split("\n")`. -/
def splitNl : List Char → List (List Char) := splitOnC '\n'

/-! ## The regex patterns of `cli.py`, embedded one by one -/

/-- The literal `width=`. -/
def widthLit : List Char := ['w', 'i', 'd', 't', 'h', '=']

/-- The literal `height=`. -/
def heightLit : List Char := ['h', 'e', 'i', 'g', 'h', 't', '=']

/-- The literal `viewBox=`. -/
def vbLit : List Char := ['v', 'i', 'e', 'w', 'B', 'o', 'x', '=']

/-- The literal `<svg`. -/
def svgLit : List Char := ['<', 's', 'v', 'g']

/-- Anchored match of the first width pattern, a quote mark followed by
digits with an optional greedy decimal part, after the literal `width=`;
returns the captured numeral. -/
def matchWidthAt (s : List Char) : Option (List Char) :=
  match matchLit widthLit s with
  | none => none
  | some r1 =>
    match r1 with
    | [] => none
    | q :: r2 =>
      if isQuoteC q then
        let ds := r2.takeWhile Char.isDigit
        if ds.length = 0 then none
        else
          match r2.drop ds.length with
          | '.' :: r3 =>
            let fs := r3.takeWhile Char.isDigit
            if fs.length = 0 then some ds else some (ds ++ '.' :: fs)
          | _ => some ds
      else none

/-- The `re.search` for the first width pattern: try the anchored match at every
position, left to right. -/
def searchWidth : List Char → Option (List Char)
  | [] => none
  | c :: rest =>
    match matchWidthAt (c :: rest) with
    | some v => some v
    | none => searchWidth rest

/-- Anchored match of the viewBox pattern: `viewBox=`, a quote, four
non-empty runs of digits-or-dots separated by non-empty whitespace runs, a
closing quote; returns the four captured groups. -/
def matchViewBoxAt (s : List Char) :
    Option (List Char × List Char × List Char × List Char) :=
  match matchLit vbLit s with
  | none => none
  | some r1 =>
    match r1 with
    | [] => none
    | q :: r2 =>
      if isQuoteC q then
        match grabClass isDotDigit r2 with
        | none => none
        | some (g1, r3) =>
          match grabClass isWsC r3 with
          | none => none
          | some (_, r4) =>
            match grabClass isDotDigit r4 with
            | none => none
            | some (g2, r5) =>
              match grabClass isWsC r5 with
              | none => none
              | some (_, r6) =>
                match grabClass isDotDigit r6 with
                | none => none
                | some (g3, r7) =>
                  match grabClass isWsC r7 with
                  | none => none
                  | some (_, r8) =>
                    match grabClass isDotDigit r8 with
                    | none => none
                    | some (g4, r9) =>
                      match r9 with
                      | [] => none
                      | q2 :: _ =>
                        if isQuoteC q2 then some (g1, g2, g3, g4) else none
      else none

/-- The `re.search` for the viewBox pattern. -/
def searchViewBox : List Char → Option (List Char × List Char × List Char × List Char)
  | [] => none
  | c :: rest =>
    match matchViewBoxAt (c :: rest) with
    | some v => some v
    | none => searchViewBox rest

/-- Anchored match of an attribute-value pattern with a closing quote
(`width=` or `height=` followed by a quote, a non-empty run of
digits-or-dots, and a quote); returns the captured run. -/
def matchAttrNumAt (lit : List Char) (s : List Char) : Option (List Char) :=
  match matchLit lit s with
  | none => none
  | some r1 =>
    match r1 with
    | [] => none
    | q :: r2 =>
      if isQuoteC q then
        match grabClass isDotDigit r2 with
        | none => none
        | some (ds, r3) =>
          match r3 with
          | [] => none
          | q2 :: _ => if isQuoteC q2 then some ds else none
      else none

/-- The `re.search` for an attribute-value pattern. -/
def searchAttrNum (lit : List Char) : List Char → Option (List Char)
  | [] => none
  | c :: rest =>
    match matchAttrNumAt lit (c :: rest) with
    | some v => some v
    | none => searchAttrNum lit rest

/-- The part of the strip pattern after the bracket-free span: a non-empty
whitespace run, the attribute literal, a quote, a non-empty run of
digits-or-dots, and a quote.  Returns the number of characters consumed. -/
def matchAttrTail (attr : List Char) (s : List Char) : Option ℕ :=
  let ws := s.takeWhile isWsC
  if ws.length = 0 then none
  else
    match matchLit attr (s.drop ws.length) with
    | none => none
    | some r2 =>
      match r2 with
      | [] => none
      | q :: r3 =>
        if isQuoteC q then
          let ds := r3.takeWhile isDotDigit
          if ds.length = 0 then none
          else
            match r3.drop ds.length with
            | [] => none
            | q2 :: _ =>
              if isQuoteC q2 then
                some (ws.length + attr.length + 1 + ds.length + 1)
              else none
        else none

/-- Greedy backtracking for the bracket-free span of the strip pattern: try
split points from the longest span down to the empty one; return the split
point together with the length consumed by the attribute tail. -/
def findLastMatchAux (attr : List Char) (rest : List Char) : ℕ → Option (ℕ × ℕ)
  | 0 =>
    match matchAttrTail attr rest with
    | some len => some (0, len)
    | none => none
  | k + 1 =>
    match matchAttrTail attr (rest.drop (k + 1)) with
    | some len => some (k + 1, len)
    | none => findLastMatchAux attr rest k

/-- Anchored match of the strip pattern
(`<svg`, a greedy bracket-free span, whitespace, attribute, quoted value):
on success return the replacement (capture group one, i.e. the match minus
the stripped attribute) and the rest of the input after the match. -/
def matchStripAt (attr : List Char) (s : List Char) : Option (List Char × List Char) :=
  match matchLit svgLit s with
  | none => none
  | some rest =>
    let run := rest.takeWhile (fun c => !(c = '>'))
    match findLastMatchAux attr rest run.length with
    | none => none
    | some (k, len) => some (svgLit ++ rest.take k, rest.drop (k + len))

/-- Fuel-driven worker for `subStrip`. -/
def subStripGo (attr : List Char) : ℕ → List Char → List Char
  | 0, s => s
  | f + 1, s =>
    match matchStripAt attr s with
    | some (g, t) => g ++ subStripGo attr f t
    | none =>
      match s with
      | [] => []
      | c :: rest => c :: subStripGo attr f rest

/-- The global `re.sub` that deletes every occurrence of a quoted `width`
(or `height`) attribute preceded by `<svg` and a bracket-free span, scanning
left to right over non-overlapping matches. -/
def subStrip (attr : List Char) (s : List Char) : List Char :=
  subStripGo attr s.length s

/-- Anchored match of the injection pattern `<svg`, a greedy bracket-free
span, then `>`; returns capture group one and the rest after the `>`. -/
def matchInjectAt (s : List Char) : Option (List Char × List Char) :=
  match matchLit svgLit s with
  | none => none
  | some rest =>
    let run := rest.takeWhile (fun c => !(c = '>'))
    match rest.dropWhile (fun c => !(c = '>')) with
    | [] => none
    | _ :: tail => some (svgLit ++ run, tail)

/-- The `re.sub` with `count=1` that rewrites the first `<svg ...>` tag,
inserting `ins` just before the closing bracket; everything after the single
match is untouched. -/
def subInjectFirst (ins : List Char) : List Char → List Char
  | [] => []
  | c :: rest =>
    match matchInjectAt (c :: rest) with
    | some (g, tail) => g ++ ins ++ '>' :: tail
    | none => c :: subInjectFirst ins rest

/-! ## SVG dimension extraction and scaling -/

/-- Model of `get_svg_width`: `int(float(numeral))` of the first numeral
after a `width=` quote anywhere in the markup; otherwise of the third
viewBox number; otherwise Python `None`.  The outer `Option` models an
exception: `ValueError` from `float` on a malformed captured numeral, or
`OverflowError` from `int` on an infinite value. -/
def get_svg_width (svg : List Char) : Option (Option ℕ) :=
  match searchWidth svg with
  | some v =>
    match parseFloat? v with
    | some d =>
      match pyInt? (pyFloatOfDec d) with
      | some n => some (some n)
      | none => none
    | none => none
  | none =>
    match searchViewBox svg with
    | some (_, _, g3, _) =>
      match parseFloat? g3 with
      | some d =>
        match pyInt? (pyFloatOfDec d) with
        | some n => some (some n)
        | none => none
      | none => none
    | none => some none

/-- The Python truthiness test `if orig_width and max_width > orig_width`:
`None` and `0` are falsy. -/
def upscaleGuard (orig : Option ℕ) (max_width : ℕ) : Bool :=
  match orig with
  | some w => decide (0 < w) && decide (w < max_width)
  | none => false

/-- The decimal digits of a natural number (fuel-driven, structural). -/
def natCharsGo : ℕ → ℕ → List Char
  | 0, _ => []
  | f + 1, n =>
    if n < 10 then [Char.ofNat (48 + n)]
    else natCharsGo f (n / 10) ++ [Char.ofNat (48 + n % 10)]

/-- Decimal rendering of a natural number, as Python string formatting of an
`int`. -/
def natChars (n : ℕ) : List Char := natCharsGo (n + 1) n

/-- The replacement text inserted before the closing bracket of the first
`<svg ...>` tag: a space, `width="W"`, a space, `height="H"`. -/
def injAttrs (w h : ℕ) : List Char :=
  ' ' :: (widthLit ++ '"' :: natChars w ++ '"' :: ' ' ::
    (heightLit ++ '"' :: natChars h ++ ['"']))

/-- The target-height computation of `scale_svg`,
`int(max_width * (height / width))` in binary64: the aspect ratio comes
from the viewBox if present, else from explicit quoted width and height
attributes, else the square fallback.  `none` models a raised exception:
a malformed numeral, a zero division, an overflowing int-to-float
conversion, or `int()` of an infinite or NaN value. -/
def svgTargetHeight (svg : List Char) (max_width : ℕ) : Option ℕ :=
  match searchViewBox svg with
  | some (_, _, g3, g4) =>
    match parseFloat? g3, parseFloat? g4 with
    | some vbw, some vbh =>
      match pyDivF (pyFloatOfDec vbh) (pyFloatOfDec vbw) with
      | some ar =>
        match pyOfNatF max_width with
        | some tf => pyInt? (pyMulF tf ar)
        | none => none
      | none => none
    | _, _ => none
  | none =>
    match searchAttrNum widthLit svg, searchAttrNum heightLit svg with
    | some wn, some hn =>
      match parseFloat? wn, parseFloat? hn with
      | some ow, some oh =>
        match pyDivF (pyFloatOfDec oh) (pyFloatOfDec ow) with
        | some ar =>
          match pyOfNatF max_width with
          | some tf => pyInt? (pyMulF tf ar)
          | none => none
        | none => none
      | _, _ => none
    | _, _ => some max_width

/-- Model of `scale_svg(svg_content, max_width)`: refuse upscaling when a truthy
original width is smaller than the target, otherwise strip quoted width and
height attributes from every `<svg` tag and inject the new size into the
first one.  `none` models a raised exception. -/
def scale_svg (svg : List Char) (max_width : ℕ) : Option (List Char × Bool) :=
  match get_svg_width svg with
  | none => none
  | some orig =>
    if upscaleGuard orig max_width then some (svg, true)
    else
      match svgTargetHeight svg max_width with
      | none => none
      | some th =>
        some (subInjectFirst (injAttrs max_width th)
          (subStrip heightLit (subStrip widthLit svg)), false)

/-! ## Raster scaling -/

/-- The decoded header of a raster image: its pixel dimensions. -/
structure PILImage where
  width : ℕ
  height : ℕ
deriving DecidableEq

/-- The Pillow collaborator: `decode` models `Image.open` (which can raise on
bytes that are not a valid image), `resizeEncode` models
`img.resize((w, h), LANCZOS)` followed by `save(format)`, as a function of
the input bytes (which determine the image), the target size and the output
format. -/
structure RasterOps where
  decode : List ℕ → Option PILImage
  resizeEncode : List ℕ → ℕ → ℕ → List Char → List ℕ

/-- The MIME-to-Pillow format table of `scale_raster`, defaulting to PNG. -/
def format_map (mime : List Char) : List Char :=
  if mime = "image/png".toList then "PNG".toList
  else if mime = "image/jpeg".toList then "JPEG".toList
  else if mime = "image/gif".toList then "GIF".toList
  else "PNG".toList

/-- Model of `int(max_width * (img.height / img.width))` in binary64: the
true division, the int-to-float conversion of `max_width`, the product and
the truncation, each with Python float semantics.  `none` models a raised
exception on any step. -/
def pyRasterHeight (max_width h w : ℕ) : Option ℕ :=
  match pyDivNN h w with
  | none => none
  | some ar =>
    match pyOfNatF max_width with
    | none => none
    | some tf => pyInt? (pyMulF tf ar)

/-- Model of `scale_raster(img_bytes, max_width, mime)`: refuse upscaling (returning
the input bytes and flag true), skip re-encoding on an exact width match,
otherwise resize to the target width and the binary64 proportional height
`int(max_width * (img.height / img.width))` and re-encode. -/
def scale_raster (ops : RasterOps) (img_bytes : List ℕ) (max_width : ℕ)
    (mime : List Char) : Option (List ℕ × Bool) :=
  match ops.decode img_bytes with
  | none => none
  | some img =>
    if img.width < max_width then some (img_bytes, true)
    else if img.width = max_width then some (img_bytes, false)
    else
      match pyRasterHeight max_width img.height img.width with
      | none => none
      | some nh =>
        some (ops.resizeEncode img_bytes max_width nh (format_map mime), false)

/-! ## Encodings -/

/-- The base64 alphabet. -/
def B64ALPHA : List Char :=
  "ABCDEFGHIJKLMNOPQRSTUVWXYZabcdefghijklmnopqrstuvwxyz0123456789+/".toList

/-- Character of a 6-bit group. -/
def b64Char (n : ℕ) : Char := B64ALPHA.getD (n % 64) 'A'

/-- Model of `base64.b64encode(...).decode("ascii")` on a byte list: standard
alphabet, `=` padding, no embedded newlines. -/
def b64encode : List ℕ → List Char
  | [] => []
  | [a] => [b64Char (a / 4), b64Char (a % 4 * 16), '=', '=']
  | [a, b] => [b64Char (a / 4), b64Char (a % 4 * 16 + b / 16), b64Char (b % 16 * 4), '=']
  | a :: b :: c :: rest =>
    b64Char (a / 4) :: b64Char (a % 4 * 16 + b / 16) ::
      b64Char (b % 16 * 4 + c / 64) :: b64Char (c % 64) :: b64encode rest

/-- Upper-case hexadecimal digits. -/
def HEXU : List Char := "0123456789ABCDEF".toList

/-- Percent-escape of one byte, as `urllib.parse.quote` produces. -/
def pctByte (b : ℕ) : List Char :=
  ['%', HEXU.getD (b / 16 % 16) '0', HEXU.getD (b % 16) '0']

/-- The characters `urllib.parse.quote` keeps verbatim with the default
`safe="/"`: ASCII letters, digits, `_.-~` and the solidus. -/
def isUrlSafe (c : Char) : Bool :=
  c.isAlpha || c.isDigit || c = '_' || c = '.' || c = '-' || c = '~' || c = '/'

/-- UTF-8 bytes of one character. -/
def utf8Bytes (c : Char) : List ℕ :=
  let n := c.toNat
  if n < 128 then [n]
  else if n < 2048 then [192 + n / 64, 128 + n % 64]
  else if n < 65536 then [224 + n / 4096, 128 + n / 64 % 64, 128 + n % 64]
  else [240 + n / 262144, 128 + n / 4096 % 64, 128 + n / 64 % 64, 128 + n % 64]

/-- Model of `urllib.parse.quote(s)` with the default safe set. -/
def quoteUrl (s : List Char) : List Char :=
  s.flatMap fun c =>
    if isUrlSafe c then [c] else (utf8Bytes c).flatMap pctByte

/-! ## The embedding orchestrator (`embed_image`) -/

/-- Lower-casing of ASCII letters (`str.lower` on the extensions concerned,
which are ASCII). -/
def lowerChar (c : Char) : Char :=
  if 'A' ≤ c ∧ c ≤ 'Z' then Char.ofNat (c.toNat + 32) else c

/-- Model of `suffix.lower()`. -/
def lowerAscii (s : List Char) : List Char := s.map lowerChar

/-- The final path component (after the last solidus), the `pathlib` name. -/
def pathName (p : List Char) : List Char :=
  ((p.reverse.takeWhile fun c => !(c = '/')).reverse)

/-- Index of the last full stop in a name, if any. -/
def lastDotIdx (n : List Char) : Option ℕ :=
  match n.reverse.findIdx? (fun c => c = '.') with
  | some j => some (n.length - 1 - j)
  | none => none

/-- Model of `pathlib.PurePath.suffix`: the extension from the last full stop of the
name, empty when the dot is leading (a hidden file) or trailing or absent. -/
def pathSuffix (p : List Char) : List Char :=
  let n := pathName p
  match lastDotIdx n with
  | some i => if 0 < i ∧ i < n.length - 1 then n.drop i else []
  | none => []

/-- Model of `pathlib.PurePath.stem`: the name without its suffix. -/
def pathStem (p : List Char) : List Char :=
  let n := pathName p
  match lastDotIdx n with
  | some i => if 0 < i ∧ i < n.length - 1 then n.take i else n
  | none => n

/-- The `MIME_TYPES` lookup: fixed five-entry table keyed by lower-cased
extension. -/
def mimeLookup (suf : List Char) : Option (List Char) :=
  if suf = ".png".toList then some ("image/png".toList)
  else if suf = ".jpg".toList then some ("image/jpeg".toList)
  else if suf = ".jpeg".toList then some ("image/jpeg".toList)
  else if suf = ".gif".toList then some ("image/gif".toList)
  else if suf = ".svg".toList then some ("image/svg+xml".toList)
  else none

/-- Model of `", ".join(MIME_TYPES.keys())` in table order. -/
def SUPPORTED_STR : List Char := ".png, .jpg, .jpeg, .gif, .svg".toList

/-- The message of the `FileNotFoundError`. -/
def fnfMsg (p : List Char) : List Char := "File not found: ".toList ++ p

/-- The message of the unsupported-format `ValueError`. -/
def unsupMsg (suf : List Char) : List Char :=
  "Unsupported format: ".toList ++ suf ++ ". Supported: ".toList ++ SUPPORTED_STR

/-- The errors `embed_image` can raise.  `otherRaise` stands for every
exception raised inside scaling, wrapping or decoding (zero division,
`float` conversion failures, an unreadable image, a zero wrap width). -/
inductive EmbedErr where
  | fileNotFound (msg : List Char)
  | unsupportedFormat (msg : List Char)
  | otherRaise
deriving DecidableEq

/-- Decidable equality of results, for evaluating the orchestrator on
concrete inputs. -/
instance : DecidableEq (Except EmbedErr (List Char)) := fun a b =>
  match a, b with
  | .ok x, .ok y =>
    if h : x = y then .isTrue (by rw [h]) else
      .isFalse (by intro hc; cases hc; exact h rfl)
  | .error x, .error y =>
    if h : x = y then .isTrue (by rw [h]) else
      .isFalse (by intro hc; cases hc; exact h rfl)
  | .ok _, .error _ => .isFalse (by intro hc; cases hc)
  | .error _, .ok _ => .isFalse (by intro hc; cases hc)

/-- The filesystem collaborator: existence test and the two read modes. -/
structure FileSys where
  pathExists : List Char → Bool
  readText : List Char → List Char
  readBytes : List Char → List ℕ

/-- Model of `alt_text or path.stem`: Python `or` takes the stem for `None` and for
the empty string. -/
def altOf (alt_text : Option (List Char)) (stem : List Char) : List Char :=
  match alt_text with
  | none => stem
  | some a => if a = [] then stem else a

/-- The returned Markdown line `![alt](uri)`. -/
def mdLine (alt uri : List Char) : List Char :=
  '!' :: '[' :: (alt ++ ']' :: '(' :: (uri ++ [')']))

/-- The literal `data:`. -/
def dataColon : List Char := ['d', 'a', 't', 'a', ':']

/-- The literal `;base64,`. -/
def base64Comma : List Char := [';', 'b', 'a', 's', 'e', '6', '4', ',']

/-- Python truthiness of the optional `max_width`: `None` and `0` do not
trigger scaling. -/
def pyOptPos : Option ℕ → Option ℕ
  | some 0 => none
  | some (n + 1) => some (n + 1)
  | none => none

/-- The tail of the raster branch: base64-encode, wrap when a wrap width was
given (`is not None`, so zero is passed through to `wrap_base64`, which
raises on it), and build the data URI line. -/
def finishRaster (alt mime : List Char) (bs : List ℕ) (wrap_width : Option ℕ) :
    Except EmbedErr (List Char) :=
  match wrap_width with
  | some w =>
    match wrap_base64 (b64encode bs) w with
    | none => .error .otherRaise
    | some e => .ok (mdLine alt (dataColon ++ mime ++ base64Comma ++ e))
  | none => .ok (mdLine alt (dataColon ++ mime ++ base64Comma ++ b64encode bs))

/-- Model of `embed_image(path, alt_text, max_width, wrap_width)`. -/
def embed_image (fs : FileSys) (ops : RasterOps) (path : List Char)
    (alt_text : Option (List Char)) (max_width : Option ℕ)
    (wrap_width : Option ℕ) : Except EmbedErr (List Char) :=
  if fs.pathExists path = false then
    .error (.fileNotFound (fnfMsg path))
  else
    match mimeLookup (lowerAscii (pathSuffix path)) with
    | none => .error (.unsupportedFormat (unsupMsg (lowerAscii (pathSuffix path))))
    | some mime =>
      if lowerAscii (pathSuffix path) = ".svg".toList then
        match pyOptPos max_width with
        | some mw =>
          match scale_svg (fs.readText path) mw with
          | none => .error .otherRaise
          | some (svg, _) =>
            .ok (mdLine (altOf alt_text (pathStem path))
              (dataColon ++ mime ++ ',' :: quoteUrl svg))
        | none =>
          .ok (mdLine (altOf alt_text (pathStem path))
            (dataColon ++ mime ++ ',' :: quoteUrl (fs.readText path)))
      else
        match pyOptPos max_width with
        | some mw =>
          match scale_raster ops (fs.readBytes path) mw mime with
          | none => .error .otherRaise
          | some (bs, _) =>
            finishRaster (altOf alt_text (pathStem path)) mime bs wrap_width
        | none =>
          finishRaster (altOf alt_text (pathStem path)) mime
            (fs.readBytes path) wrap_width

/-! ## Concrete instances used by counterexamples and witnesses -/

/-- A substring test (used to state counterexample facts). -/
def occursSub (pat : List Char) : List Char → Bool
  | [] => pat.length = 0
  | c :: rest => (matchLit pat (c :: rest)).isSome || occursSub pat rest

/-- Markup with a nested `<svg>` tag carrying its own width attribute. -/
def nestedSvgIn : List Char :=
  "<svg viewBox=\"0 0 10 10\"><rect/><svg width=\"5\"></svg></svg>".toList

/-- What `scale_svg` actually produces for `nestedSvgIn` at width 4: the
nested width attribute is stripped as well. -/
def nestedSvgOut : List Char :=
  "<svg viewBox=\"0 0 10 10\" width=\"4\" height=\"4\"><rect/><svg></svg></svg>".toList

/-- Markup whose root tag carries explicit width and height attributes. -/
def rootAttrSvg : List Char :=
  "<svg width=\"30\" height=\"60\"><rect/></svg>".toList

/-- What `scale_svg` produces for `rootAttrSvg` at width 10: both root
attributes are stripped and the new pair is injected before the closing
bracket. -/
def rootAttrOut : List Char :=
  "<svg width=\"10\" height=\"20\"><rect/></svg>".toList

/-- Markup whose first `width=` occurrence is inside `stroke-width`. -/
def strokeWidthSvg : List Char :=
  "<svg stroke-width=\"3\" width=\"100\" viewBox=\"0 0 200 50\"></svg>".toList

/-- Markup with viewBox width zero. -/
def zeroViewBoxSvg : List Char := "<svg viewBox=\"0 0 0 100\"></svg>".toList

/-- Markup with explicit width zero and no viewBox. -/
def zeroWidthSvg : List Char := "<svg width=\"0\" height=\"50\"></svg>".toList

/-- Markup that blocks upscaling (explicit width 100). -/
def upscaleSvg : List Char := "<svg width=\"100\" height=\"100\"><circle/></svg>".toList

/-- Markup for witnesses: a plain viewBox drawing. -/
def plainSvg : List Char := "<svg viewBox=\"0 0 200 100\"><rect/></svg>".toList

/-- Raster collaborator whose decoder reports a 10 by 10 image and whose
encoder returns an empty byte list (the refusal paths never reach it). -/
def opsSmall : RasterOps :=
  { decode := fun _ => some ⟨10, 10⟩, resizeEncode := fun _ _ _ _ => [] }

/-- Raster collaborator for a 200 by 100 image whose encoder records the
target size it was asked for. -/
def opsWide : RasterOps :=
  { decode := fun _ => some ⟨200, 100⟩, resizeEncode := fun _ w h _ => [w, h] }

/-- A filesystem with a single SVG file whose viewBox width is zero. -/
def fsZero : FileSys :=
  { pathExists := fun _ => true,
    readText := fun _ => zeroViewBoxSvg,
    readBytes := fun _ => [] }

/-- A filesystem with one tiny PNG payload. -/
def fsPng : FileSys :=
  { pathExists := fun _ => true,
    readText := fun _ => [],
    readBytes := fun _ => [65] }

/-- A filesystem on which nothing exists. -/
def fsNone : FileSys :=
  { pathExists := fun _ => false, readText := fun _ => [], readBytes := fun _ => [] }

/-- The span one strip substitution deletes: a non-empty run of whitespace,
the attribute literal (`width=` or `height=`), an opening quote, a non-empty
run of digits or dots, and a closing quote. -/
def IsAttrSpan (attr del : List Char) : Prop :=
  ∃ ws q ds q2, del = ws ++ attr ++ q :: (ds ++ [q2]) ∧
    ws ≠ [] ∧ (∀ c ∈ ws, isWsC c = true) ∧ isQuoteC q = true ∧
    ds ≠ [] ∧ (∀ c ∈ ds, isDotDigit c = true) ∧ isQuoteC q2 = true

/-- A tag head: the literal `<svg` followed by a span free of closing
brackets (what capture group one of the three substitution patterns can
match). -/
def IsTagHead (g : List Char) : Prop :=
  ∃ span, g = svgLit ++ span ∧ ∀ c ∈ span, ¬ c = '>'

/-- Relation between a markup and a possible result of one global strip
substitution: the result keeps every character, except that immediately
after a tag head (anywhere in the markup: root, nested or subsequent tags
alike) a well-shaped quoted attribute span may be deleted. -/
inductive StripRel (attr : List Char) : List Char → List Char → Prop
  | nil : StripRel attr [] []
  | keep (c : Char) (s out : List Char) :
      StripRel attr s out → StripRel attr (c :: s) (c :: out)
  | strip (g del s out : List Char) :
      IsTagHead g → IsAttrSpan attr del → StripRel attr s out →
      StripRel attr (g ++ (del ++ s)) (g ++ out)

/-- The string starts with the closing bracket of an `<svg ...>` tag head. -/
def TagCloseAt (s : List Char) : Prop :=
  ∃ g tail, s = g ++ '>' :: tail ∧ IsTagHead g

/-- The single `count=1` injection: either the text up to the first
`<svg ...>` tag close is kept, `ins` goes in just before that closing
bracket, the tail after it is kept verbatim, and no earlier position starts
a tag close; or no position starts a tag close and the markup is returned
unchanged. -/
def InjectsFirst (ins s out : List Char) : Prop :=
  (∃ pre g tail, s = pre ++ (g ++ '>' :: tail) ∧ IsTagHead g ∧
    out = pre ++ (g ++ ins ++ '>' :: tail) ∧
    ∀ i, i < pre.length → ¬ TagCloseAt (s.drop i)) ∨
  (out = s ∧ ∀ i, ¬ TagCloseAt (s.drop i))

/-- The full shape of a raster Markdown line,
`![alt](data:MIME;base64,PAYLOAD)`. -/
def mdB64Line (alt mime payload : List Char) : List Char :=
  mdLine alt (dataColon ++ mime ++ base64Comma ++ payload)

/-- The decidable side condition under which `scale_svg` at target width `t`
cannot raise: every numeral the code extracts parses as a float, every
`int()` it applies receives a finite value, the int-to-float conversion of
`t` does not overflow, and the aspect-ratio denominator it divides by is not
(a possibly underflowed) zero. -/
def svgScaleSafe (svg : List Char) (t : ℕ) : Bool :=
  (match searchWidth svg with
   | some v =>
     match parseFloat? v with
     | some d => (pyInt? (pyFloatOfDec d)).isSome
     | none => false
   | none =>
     match searchViewBox svg with
     | some (_, _, g3, _) =>
       match parseFloat? g3 with
       | some d => (pyInt? (pyFloatOfDec d)).isSome
       | none => false
     | none => true) &&
  (match searchViewBox svg with
   | some (_, _, g3, g4) =>
     match parseFloat? g3, parseFloat? g4 with
     | some q3, some q4 =>
       match pyDivF (pyFloatOfDec q4) (pyFloatOfDec q3) with
       | some ar =>
         match pyOfNatF t with
         | some tf => (pyInt? (pyMulF tf ar)).isSome
         | none => false
       | none => false
     | _, _ => false
   | none =>
     match searchAttrNum widthLit svg, searchAttrNum heightLit svg with
     | some wn, some hn =>
       match parseFloat? wn, parseFloat? hn with
       | some qw, some qh =>
         match pyDivF (pyFloatOfDec qh) (pyFloatOfDec qw) with
         | some ar =>
           match pyOfNatF t with
           | some tf => (pyInt? (pyMulF tf ar)).isSome
           | none => false
         | none => false
       | _, _ => false
     | _, _ => true)

/-! # Theorems -/

/-! ## Wrapping lemmas -/

theorem chunksGo_nil (w f : ℕ) : chunksGo w f [] = [] := by
  cases f <;> rfl

theorem chunksGo_congr (w : ℕ) :
    ∀ f f' (s : List Char), s.length ≤ f → s.length ≤ f' →
      chunksGo w f s = chunksGo w f' s := by
  intro f
  induction f with
  | zero =>
    intro f' s hf _
    have : s = [] := by
      cases s with
      | nil => rfl
      | cons c r => simp at hf
    subst this
    simp [chunksGo_nil]
  | succ f ih =>
    intro f' s hf hf'
    cases s with
    | nil => simp [chunksGo_nil]
    | cons c rest =>
      cases f' with
      | zero => simp at hf'
      | succ f' =>
        simp only [chunksGo]
        congr 1
        exact ih f' (rest.drop (w - 1))
          (by simp only [List.length_drop]; simp at hf; omega)
          (by simp only [List.length_drop]; simp at hf'; omega)

theorem chunksOf_nil (w : ℕ) : chunksOf w [] = [] := rfl

theorem chunksOf_cons (w : ℕ) (c : Char) (rest : List Char) :
    chunksOf w (c :: rest) =
      (c :: rest.take (w - 1)) :: chunksOf w (rest.drop (w - 1)) := by
  show chunksGo w (rest.length + 1) (c :: rest) = _
  simp only [chunksGo]
  congr 1
  exact chunksGo_congr w rest.length (rest.drop (w - 1)).length (rest.drop (w - 1))
    (by simp only [List.length_drop]; omega) le_rfl

theorem chunksOf_flatten (w : ℕ) :
    ∀ n (s : List Char), s.length ≤ n → (chunksOf w s).flatten = s := by
  intro n
  induction n with
  | zero =>
    intro s hs
    have : s = [] := by cases s with
      | nil => rfl
      | cons c r => simp at hs
    subst this; simp [chunksOf_nil]
  | succ n ih =>
    intro s hs
    cases s with
    | nil => simp [chunksOf_nil]
    | cons c rest =>
      rw [chunksOf_cons]
      simp only [List.flatten_cons]
      rw [ih (rest.drop (w - 1)) (by simp only [List.length_drop]; simp at hs; omega)]
      simp [List.take_append_drop]

theorem chunksOf_length (w : ℕ) (hw : 0 < w) :
    ∀ n (s : List Char), s.length ≤ n →
      (chunksOf w s).length = (s.length + w - 1) / w := by
  intro n
  induction n with
  | zero =>
    intro s hs
    have : s = [] := by cases s with
      | nil => rfl
      | cons c r => simp at hs
    subst this
    simp only [chunksOf_nil, List.length_nil]
    exact (Nat.div_eq_of_lt (by omega)).symm
  | succ n ih =>
    intro s hs
    cases s with
    | nil =>
      simp only [chunksOf_nil, List.length_nil]
      exact (Nat.div_eq_of_lt (by omega)).symm
    | cons c rest =>
      rw [chunksOf_cons]
      simp only [List.length_cons]
      have hm : rest.length ≤ n := by simpa using hs
      by_cases hcase : rest.length < w
      · have hdrop : rest.drop (w - 1) = [] :=
          List.drop_eq_nil_of_le (by omega)
        rw [hdrop, chunksOf_nil]
        have e1 : rest.length + 1 + w - 1 = rest.length + w := by omega
        rw [e1, Nat.add_div_right _ hw, Nat.div_eq_of_lt hcase]
        simp
      · push_neg at hcase
        rw [ih (rest.drop (w - 1)) (by simp only [List.length_drop]; omega)]
        simp only [List.length_drop]
        have e1 : rest.length - (w - 1) + w - 1 = rest.length := by omega
        have e2 : rest.length + 1 + w - 1 = rest.length + w := by omega
        rw [e1, e2, Nat.add_div_right _ hw]

theorem chunksOf_ne_nil (w : ℕ) (c : Char) (rest : List Char) :
    chunksOf w (c :: rest) ≠ [] := by
  rw [chunksOf_cons]; simp

theorem chunksOf_cons_ex (w : ℕ) (c : Char) (rest : List Char) :
    ∃ e es, chunksOf w (c :: rest) = e :: es := by
  rw [chunksOf_cons]; exact ⟨_, _, rfl⟩

theorem chunksOf_dropLast_len (w : ℕ) (hw : 0 < w) :
    ∀ n (s : List Char), s.length ≤ n →
      ∀ l ∈ (chunksOf w s).dropLast, l.length = w := by
  intro n
  induction n with
  | zero =>
    intro s hs
    have : s = [] := by cases s with
      | nil => rfl
      | cons c r => simp at hs
    subst this; simp [chunksOf_nil]
  | succ n ih =>
    intro s hs
    cases s with
    | nil => simp [chunksOf_nil]
    | cons c rest =>
      rw [chunksOf_cons]
      have hm : rest.length ≤ n := by simpa using hs
      by_cases hdrop : rest.drop (w - 1) = []
      · rw [hdrop, chunksOf_nil]; simp
      · obtain ⟨d, dr, hd⟩ : ∃ d dr, rest.drop (w - 1) = d :: dr := by
          cases h : rest.drop (w - 1) with
          | nil => exact absurd h hdrop
          | cons d dr => exact ⟨d, dr, rfl⟩
        have hne : chunksOf w (rest.drop (w - 1)) ≠ [] := by
          rw [hd]; exact chunksOf_ne_nil w d dr
        rw [List.dropLast_cons_of_ne_nil hne]
        intro l hl
        rcases List.mem_cons.mp hl with h | h
        · subst h
          have hlen : w - 1 ≤ rest.length := by
            by_contra hcon
            push_neg at hcon
            have : rest.drop (w - 1) = [] := List.drop_eq_nil_of_le (by omega)
            exact absurd this hdrop
          simp only [List.length_cons, List.length_take, Nat.min_eq_left hlen]
          omega
        · exact ih (rest.drop (w - 1))
            (by simp only [List.length_drop]; omega) l h

theorem chunksOf_getLast_len (w : ℕ) (hw : 0 < w) :
    ∀ n (s : List Char), s.length ≤ n →
      ∀ l, (chunksOf w s).getLast? = some l → 1 ≤ l.length ∧ l.length ≤ w := by
  intro n
  induction n with
  | zero =>
    intro s hs
    have : s = [] := by cases s with
      | nil => rfl
      | cons c r => simp at hs
    subst this; simp [chunksOf_nil]
  | succ n ih =>
    intro s hs
    cases s with
    | nil => simp [chunksOf_nil]
    | cons c rest =>
      rw [chunksOf_cons]
      have hm : rest.length ≤ n := by simpa using hs
      by_cases hdrop : rest.drop (w - 1) = []
      · rw [hdrop, chunksOf_nil]
        intro l hl
        have hl' : l = c :: rest.take (w - 1) := by simpa using hl.symm
        subst hl'
        simp only [List.length_cons, List.length_take]
        omega
      · obtain ⟨d, dr, hd⟩ : ∃ d dr, rest.drop (w - 1) = d :: dr := by
          cases h : rest.drop (w - 1) with
          | nil => exact absurd h hdrop
          | cons d dr => exact ⟨d, dr, rfl⟩
        rw [hd]
        obtain ⟨e, es, he⟩ := chunksOf_cons_ex w d dr
        rw [he]
        intro l hl
        rw [List.getLast?_cons_cons] at hl
        have := ih (rest.drop (w - 1)) (by simp only [List.length_drop]; omega) l
        rw [hd, he] at this
        exact this hl

theorem chunksOf_no_nl (w : ℕ) :
    ∀ n (s : List Char), s.length ≤ n → '\n' ∉ s →
      ∀ l ∈ chunksOf w s, '\n' ∉ l := by
  intro n
  induction n with
  | zero =>
    intro s hs
    have : s = [] := by cases s with
      | nil => rfl
      | cons c r => simp at hs
    subst this; simp [chunksOf_nil]
  | succ n ih =>
    intro s hs hnl
    cases s with
    | nil => simp [chunksOf_nil]
    | cons c rest =>
      rw [chunksOf_cons]
      have hm : rest.length ≤ n := by simpa using hs
      intro l hl
      rcases List.mem_cons.mp hl with h | h
      · subst h
        intro hmem
        rcases List.mem_cons.mp hmem with h' | h'
        · exact hnl (h' ▸ List.mem_cons_self _ _)
        · exact hnl (List.mem_cons_of_mem _ (List.take_subset _ _ h'))
      · exact ih (rest.drop (w - 1)) (by simp only [List.length_drop]; omega)
          (fun hc => hnl (List.mem_cons_of_mem _ (List.drop_subset _ _ hc))) l h

theorem splitNl_no_nl (l : List Char) (h : '\n' ∉ l) : splitNl l = [l] := by
  induction l with
  | nil => rfl
  | cons c rest ih =>
    have hc : ¬ (c = '\n') := fun hc => h (hc ▸ List.mem_cons_self _ _)
    have hr : '\n' ∉ rest := fun hr => h (List.mem_cons_of_mem _ hr)
    show splitOnC '\n' (c :: rest) = [c :: rest]
    simp only [splitOnC, if_neg hc]
    rw [show splitOnC '\n' rest = splitNl rest from rfl, ih hr]

theorem splitNl_append_nl (l t : List Char) (h : '\n' ∉ l) :
    splitNl (l ++ '\n' :: t) = l :: splitNl t := by
  induction l with
  | nil =>
    show splitOnC '\n' ('\n' :: t) = [] :: splitNl t
    simp [splitOnC, splitNl]
  | cons c rest ih =>
    have hc : ¬ (c = '\n') := fun hc => h (hc ▸ List.mem_cons_self _ _)
    have hr : '\n' ∉ rest := fun hr => h (List.mem_cons_of_mem _ hr)
    show splitOnC '\n' (c :: (rest ++ '\n' :: t)) = (c :: rest) :: splitNl t
    simp only [splitOnC, if_neg hc]
    rw [show splitOnC '\n' (rest ++ '\n' :: t) = splitNl (rest ++ '\n' :: t) from rfl,
      ih hr]

theorem splitNl_joinNl (L : List (List Char)) (hL : L ≠ [])
    (h : ∀ l ∈ L, '\n' ∉ l) : splitNl (joinNl L) = L := by
  induction L with
  | nil => exact absurd rfl hL
  | cons l ls ih =>
    cases ls with
    | nil =>
      show splitNl (joinNl [l]) = [l]
      rw [show joinNl [l] = l from rfl]
      exact splitNl_no_nl l (h l (List.mem_cons_self _ _))
    | cons l' ls' =>
      rw [show joinNl (l :: l' :: ls') = l ++ '\n' :: joinNl (l' :: ls') from rfl]
      rw [splitNl_append_nl l _ (h l (List.mem_cons_self _ _))]
      rw [ih (by simp) (fun x hx => h x (List.mem_cons_of_mem _ hx))]

/-- C1 (counterexample).  The claim quantifies over every string `S`; for a
string that itself contains a newline the lines of the wrapped result do not
match the chunk structure: with `S = "a\nb"` and width 5 the result is `S`
itself, splitting it on newlines yields 2 lines instead of
`ceil(3 / 5) = 1`, and the concatenation of those lines is not `S`. -/
theorem c1_wrap_newline_counterexample :
    wrap_base64 ("a\nb".toList) 5 = some ("a\nb".toList) ∧
    (splitNl ("a\nb".toList)).length = 2 ∧
    (("a\nb".toList).length + 5 - 1) / 5 = 1 ∧
    (splitNl ("a\nb".toList)).flatten ≠ "a\nb".toList := by decide

/-- C1 (amended: restricted to newline-free input, as every base64 string
is).  For every newline-free string `S` and width `W > 0`, `wrap_base64`
returns a string whose newline-split consists of `ceil(len(S)/W)` lines
(the empty string, i.e. zero lines, for empty `S`), every line except
possibly the last has length exactly `W`, the last line has length between 1
and `W`, and concatenating the lines reproduces `S`. -/
theorem c1_wrap_lines_amended (s : List Char) (w : ℕ) (hw : 0 < w)
    (hnl : '\n' ∉ s) :
    ∃ out, wrap_base64 s w = some out ∧
      (s = [] → out = []) ∧
      (s ≠ [] →
        (splitNl out).length = (s.length + w - 1) / w ∧
        (∀ l ∈ (splitNl out).dropLast, l.length = w) ∧
        (∀ l, (splitNl out).getLast? = some l → 1 ≤ l.length ∧ l.length ≤ w) ∧
        (splitNl out).flatten = s) := by
  obtain ⟨w', rfl⟩ : ∃ w', w = w' + 1 := ⟨w - 1, by omega⟩
  refine ⟨joinNl (chunksOf (w' + 1) s), rfl, ?_, ?_⟩
  · rintro rfl; rfl
  · intro hs
    obtain ⟨c, rest, rfl⟩ : ∃ c rest, s = c :: rest := by
      cases s with
      | nil => exact absurd rfl hs
      | cons c rest => exact ⟨c, rest, rfl⟩
    have hsplit : splitNl (joinNl (chunksOf (w' + 1) (c :: rest))) =
        chunksOf (w' + 1) (c :: rest) :=
      splitNl_joinNl _ (chunksOf_ne_nil _ _ _)
        (chunksOf_no_nl (w' + 1) (c :: rest).length (c :: rest) le_rfl hnl)
    rw [hsplit]
    exact ⟨chunksOf_length (w' + 1) (by omega) (c :: rest).length _ le_rfl,
      chunksOf_dropLast_len (w' + 1) (by omega) (c :: rest).length _ le_rfl,
      chunksOf_getLast_len (w' + 1) (by omega) (c :: rest).length _ le_rfl,
      chunksOf_flatten (w' + 1) (c :: rest).length _ le_rfl⟩

/-! ## C2, C3, C6: the scalers -/

/-- C2: whenever `scale_svg` or `scale_raster` returns with the
upscale-refused flag set, the returned payload is exactly the input payload;
no re-encoding or modification happens on the refusal path. -/
theorem c2_refusal_returns_input :
    (∀ (s : List Char) (t : ℕ) (out : List Char), 0 < t →
      scale_svg s t = some (out, true) → out = s) ∧
    (∀ (ops : RasterOps) (b : List ℕ) (t : ℕ) (m : List Char) (out : List ℕ),
      0 < t → scale_raster ops b t m = some (out, true) → out = b) := by
  constructor
  · intro s t out _ h
    unfold scale_svg at h
    split at h
    · exact Option.noConfusion h
    · split at h
      · simp only [Option.some.injEq, Prod.mk.injEq] at h
        exact h.1.symm
      · split at h
        · exact Option.noConfusion h
        · simp at h
  · intro ops b t m out _ h
    unfold scale_raster at h
    split at h
    · exact Option.noConfusion h
    · split at h
      · simp only [Option.some.injEq, Prod.mk.injEq] at h
        exact h.1.symm
      · split at h
        · simp at h
        · split at h
          · exact Option.noConfusion h
          · simp at h

/-- Witness for C2: both refusal paths at concrete inputs (an SVG with
explicit width 100 asked to become 200, a 10 by 10 raster asked to become
20). -/
theorem c2_refusal_returns_input_witness :
    upscaleSvg = upscaleSvg ∧ ([9] : List ℕ) = [9] :=
  ⟨c2_refusal_returns_input.1 upscaleSvg 200 upscaleSvg (by decide) (by decide),
   c2_refusal_returns_input.2 opsSmall [9] 20 ("image/png".toList) [9]
     (by decide) (by decide)⟩

/-- C3 (counterexample).  The claim says the output height is
`round(T * H0 / W0)`.  For a 200 by 100 image and target width 3 the exact
proportional height is 1.5, whose rounding is 2 (Python `round(1.5)` is also
2), but the code truncates: it resizes to height 1. -/
theorem c3_round_counterexample :
    scale_raster opsWide [9] 3 ("image/png".toList) = some ([3, 1], false) ∧
    round ((3 * 100 : ℚ) / 200) = 2 ∧ (1 : ℤ) ≠ 2 := by
  refine ⟨by decide, ?_, by decide⟩
  norm_num [round_eq]

/-- C3 (amended: the height is `int(T * (H0 / W0))` evaluated in binary64,
the truncation of the rounded product, not the rounding and not the exact
rational floor).  For a raster image wider than the target, `scale_raster`
re-encodes at width exactly `T` and that binary64 height, with the flag
false.  The last two conjuncts show the binary64 height can differ from the
exact floor: for a 98 by 2 image at target 49 the float product
`49 * (2 / 98)` falls just below 1 and truncates to 0, while the exact
quotient floor is 1. -/
theorem c3_downscale_dims_amended (ops : RasterOps) (b : List ℕ) (t : ℕ)
    (m : List Char) (img : PILImage) (nh : ℕ) (hd : ops.decode b = some img)
    (hlt : t < img.width)
    (hh : pyRasterHeight t img.height img.width = some nh) :
    scale_raster ops b t m =
      some (ops.resizeEncode b t nh (format_map m), false) ∧
    pyRasterHeight 49 2 98 = some 0 ∧ 49 * 2 / 98 = 1 := by
  refine ⟨?_, by decide, by decide⟩
  simp only [scale_raster, hd]
  rw [if_neg (by omega : ¬ img.width < t), if_neg (by omega : ¬ img.width = t)]
  simp only [hh]

/-- Witness for C3: a 200 by 100 image scaled to width 100 is resized to
100 by 50 (here `100 * (100 / 200)` is exact in binary64). -/
theorem c3_downscale_dims_witness :
    scale_raster opsWide [9] 100 ("image/png".toList) =
      some ([100, 50], false) ∧
    pyRasterHeight 49 2 98 = some 0 ∧ 49 * 2 / 98 = 1 :=
  c3_downscale_dims_amended opsWide [9] 100 ("image/png".toList) ⟨200, 100⟩
    50 rfl (by decide) (by decide)

/-- C6: a raster image whose intrinsic width equals the target width is
returned byte-identical with the flag false (no decode and re-encode round
trip affects the output). -/
theorem c6_exact_width_identity (ops : RasterOps) (b : List ℕ) (t : ℕ)
    (m : List Char) (img : PILImage) (hd : ops.decode b = some img)
    (hw : img.width = t) : scale_raster ops b t m = some (b, false) := by
  simp only [scale_raster, hd]
  rw [if_neg (by omega : ¬ img.width < t), if_pos hw]

/-- Witness for C6: a 10 by 10 image at target width 10. -/
theorem c6_exact_width_identity_witness :
    scale_raster opsSmall [9] 10 ("image/png".toList) = some ([9], false) :=
  c6_exact_width_identity opsSmall [9] 10 ("image/png".toList) ⟨10, 10⟩ rfl rfl

/-! ## C5: totality of `scale_svg` -/

theorem svgSafe_get (svg : List Char) (t : ℕ)
    (hs : svgScaleSafe svg t = true) : ∃ o, get_svg_width svg = some o := by
  unfold svgScaleSafe at hs
  rw [Bool.and_eq_true] at hs
  obtain ⟨h1, _⟩ := hs
  cases hw : searchWidth svg with
  | some v =>
    simp only [hw] at h1
    cases hp : parseFloat? v with
    | none => rw [hp] at h1; simp at h1
    | some d =>
      simp only [hp, Option.isSome_iff_exists] at h1
      obtain ⟨n, hn⟩ := h1
      exact ⟨some n, by simp only [get_svg_width, hw, hp, hn]⟩
  | none =>
    simp only [hw] at h1
    cases hvb : searchViewBox svg with
    | none => exact ⟨none, by simp only [get_svg_width, hw, hvb]⟩
    | some g =>
      obtain ⟨a, b, g3, g4⟩ := g
      simp only [hvb] at h1
      cases hp3 : parseFloat? g3 with
      | none => simp only [hp3] at h1; simp at h1
      | some q3 =>
        simp only [hp3, Option.isSome_iff_exists] at h1
        obtain ⟨n, hn⟩ := h1
        exact ⟨some n, by simp only [get_svg_width, hw, hvb, hp3, hn]⟩

theorem svgSafe_height (svg : List Char) (t : ℕ)
    (hs : svgScaleSafe svg t = true) :
    ∃ th, svgTargetHeight svg t = some th := by
  unfold svgScaleSafe at hs
  rw [Bool.and_eq_true] at hs
  obtain ⟨_, h2⟩ := hs
  cases hvb : searchViewBox svg with
  | some g =>
    obtain ⟨a, b, g3, g4⟩ := g
    simp only [hvb] at h2
    cases hp3 : parseFloat? g3 with
    | none => simp only [hp3] at h2; simp at h2
    | some q3 =>
      cases hp4 : parseFloat? g4 with
      | none => simp only [hp3, hp4] at h2; simp at h2
      | some q4 =>
        simp only [hp3, hp4] at h2
        cases hdiv : pyDivF (pyFloatOfDec q4) (pyFloatOfDec q3) with
        | none => simp only [hdiv] at h2; simp at h2
        | some ar =>
          simp only [hdiv] at h2
          cases htf : pyOfNatF t with
          | none => simp only [htf] at h2; simp at h2
          | some tf =>
            simp only [htf, Option.isSome_iff_exists] at h2
            obtain ⟨n, hn⟩ := h2
            exact ⟨n, by
              simp only [svgTargetHeight, hvb, hp3, hp4, hdiv, htf, hn]⟩
  | none =>
    simp only [hvb] at h2
    cases hwn : searchAttrNum widthLit svg with
    | none => exact ⟨t, by simp only [svgTargetHeight, hvb, hwn]⟩
    | some wn =>
      cases hhn : searchAttrNum heightLit svg with
      | none => exact ⟨t, by simp only [svgTargetHeight, hvb, hwn, hhn]⟩
      | some hn =>
        simp only [hwn, hhn] at h2
        cases hpw : parseFloat? wn with
        | none => simp only [hpw] at h2; simp at h2
        | some qw =>
          cases hph : parseFloat? hn with
          | none => simp only [hpw, hph] at h2; simp at h2
          | some qh =>
            simp only [hpw, hph] at h2
            cases hdiv : pyDivF (pyFloatOfDec qh) (pyFloatOfDec qw) with
            | none => simp only [hdiv] at h2; simp at h2
            | some ar =>
              simp only [hdiv] at h2
              cases htf : pyOfNatF t with
              | none => simp only [htf] at h2; simp at h2
              | some tf =>
                simp only [htf, Option.isSome_iff_exists] at h2
                obtain ⟨n, hn2⟩ := h2
                exact ⟨n, by
                  simp only [svgTargetHeight, hvb, hwn, hhn, hpw, hph, hdiv,
                    htf, hn2]⟩

/-- C5 (counterexample).  The claim says `scale_svg` never raises, in
particular for a zero viewBox width or a zero explicit width.  In both of
those cases the aspect-ratio computation divides by zero and the call raises
`ZeroDivisionError` (modelled by `none`). -/
theorem c5_zero_width_counterexample :
    scale_svg zeroViewBoxSvg 50 = none ∧ scale_svg zeroWidthSvg 10 = none := by
  decide

/-- C5 (amended).  `scale_svg` terminates normally and returns a pair
whenever its numeric conversions all succeed: every numeral it extracts
parses as a float, every value it passes to `int()` is finite, the
int-to-float conversion of the target width does not overflow, and the
aspect-ratio denominator it divides by (the viewBox width, or the explicit
width attribute when no viewBox is present) is not zero; for a zero
denominator it raises a division error. -/
theorem c5_total_unless_raise_amended (svg : List Char) (t : ℕ)
    (hs : svgScaleSafe svg t = true) : ∃ r, scale_svg svg t = some r := by
  obtain ⟨o, ho⟩ := svgSafe_get svg t hs
  obtain ⟨th, hth⟩ := svgSafe_height svg t hs
  by_cases hg : upscaleGuard o t
  · exact ⟨(svg, true), by simp only [scale_svg, ho, if_pos hg]⟩
  · exact ⟨(subInjectFirst (injAttrs t th)
      (subStrip heightLit (subStrip widthLit svg)), false),
      by simp only [scale_svg, ho, if_neg hg, hth]⟩

/-- Witness for C5: a plain viewBox drawing satisfies the side condition and
scales without raising. -/
theorem c5_total_unless_raise_witness :
    ∃ r, scale_svg plainSvg 50 = some r :=
  c5_total_unless_raise_amended plainSvg 50 (by decide)

/-! ## C7: extractor precedence -/

/-- C7 (counterexample).  The claim says that in a markup containing both an
explicit width attribute and a differing viewBox width the extractor returns
the explicit width.  The search is a plain substring search for `width=`
followed by a quote, so `stroke-width="3"` matches first: on the markup
below the extractor returns 3, not the explicit width 100. -/
theorem c7_stroke_width_counterexample :
    get_svg_width strokeWidthSvg = some (some 3) ∧
    occursSub ("width=\"100\"".toList) strokeWidthSvg = true ∧
    searchViewBox strokeWidthSvg =
      some ("0".toList, "0".toList, "200".toList, "50".toList) ∧
    (3 : ℕ) ≠ 100 := by decide

/-- C7 (amended).  `get_svg_width` returns `int(float(numeral))`, with
binary64 rounding, of the numeral captured at the first occurrence of
`width=` followed by a quote anywhere in the markup (which can sit inside a
longer attribute name such as `stroke-width`); when there is no such
occurrence it returns `int(float(...))` of the third viewBox number if a
full viewBox is present, and an absent value otherwise.  The conversion is
not exact decimal truncation: `1.9999999999999999` rounds to the float
`2.0` and converts to 2, and a numeral of 309 or more digits overflows to
infinity, on which `int` raises `OverflowError`. -/
theorem c7_first_match_precedence_amended (s : List Char) :
    (∀ v d n, searchWidth s = some v → parseFloat? v = some d →
      pyInt? (pyFloatOfDec d) = some n → get_svg_width s = some (some n)) ∧
    (searchWidth s = none → ∀ a b g3 g4 d n,
      searchViewBox s = some (a, b, g3, g4) → parseFloat? g3 = some d →
      pyInt? (pyFloatOfDec d) = some n → get_svg_width s = some (some n)) ∧
    (searchWidth s = none → searchViewBox s = none →
      get_svg_width s = some none) ∧
    (∀ v d, searchWidth s = some v → parseFloat? v = some d →
      pyInt? (pyFloatOfDec d) = none → get_svg_width s = none) ∧
    pyInt? (pyFloatOfDec ⟨19999999999999999, 16⟩) = some 2 ∧
    Dec.trunc ⟨19999999999999999, 16⟩ = 1 ∧
    pyInt? (pyFloatOfDec ⟨10 ^ 309, 0⟩) = none := by
  refine ⟨?_, ?_, ?_, ?_, ?_, ?_, ?_⟩
  · intro v d n hv hd hn
    simp only [get_svg_width, hv, hd, hn]
  · intro hn a b g3 g4 d n hvb hd hni
    simp only [get_svg_width, hn, hvb, hd, hni]
  · intro hn hvb
    simp only [get_svg_width, hn, hvb]
  · intro v d hv hd hni
    simp only [get_svg_width, hv, hd, hni]
  · decide
  · rfl
  · decide

/-- Witness for C7: explicit width 150 wins over a viewBox width 300. -/
theorem c7_first_match_precedence_witness :
    get_svg_width ("<svg width=\"150\" viewBox=\"0 0 300 100\"></svg>".toList) =
      some (some 150) :=
  (c7_first_match_precedence_amended _).1 ("150".toList) ⟨150, 0⟩ 150
    (by decide) (by decide) (by decide)

/-! ## Scanner equations (used for C4) -/

theorem matchLit_length (lit : List Char) :
    ∀ s r, matchLit lit s = some r → s.length = lit.length + r.length := by
  induction lit with
  | nil =>
    intro s r h
    simp only [matchLit, Option.some.injEq] at h
    subst h
    simp
  | cons l lit ih =>
    intro s r h
    cases s with
    | nil => exact Option.noConfusion h
    | cons c s' =>
      simp only [matchLit] at h
      by_cases hc : c = l
      · rw [if_pos hc] at h
        have := ih s' r h
        simp [this]
        omega
      · rw [if_neg hc] at h
        exact Option.noConfusion h

theorem matchStripAt_some_len (attr s : List Char) (g t : List Char)
    (h : matchStripAt attr s = some (g, t)) : t.length < s.length := by
  unfold matchStripAt at h
  cases hl : matchLit svgLit s with
  | none => rw [hl] at h; exact Option.noConfusion h
  | some rest =>
    simp only [hl] at h
    cases hf : findLastMatchAux attr rest
        ((rest.takeWhile fun c => !(c = '>')).length) with
    | none =>
      simp only [hf] at h
      exact Option.noConfusion h
    | some kl =>
      obtain ⟨k, len⟩ := kl
      simp only [hf, Option.some.injEq, Prod.mk.injEq] at h
      have hs : s.length = svgLit.length + rest.length := matchLit_length _ _ _ hl
      have ht : t.length ≤ rest.length := by
        rw [← h.2]
        simp [List.length_drop]
      simp only [svgLit, List.length_cons] at hs
      omega

theorem subStripGo_nil (attr : List Char) (f : ℕ) : subStripGo attr f [] = [] := by
  cases f <;> rfl

theorem subStripGo_congr (attr : List Char) :
    ∀ f f' (s : List Char), s.length ≤ f → s.length ≤ f' →
      subStripGo attr f s = subStripGo attr f' s := by
  intro f
  induction f with
  | zero =>
    intro f' s hf _
    have : s = [] := by cases s with
      | nil => rfl
      | cons c r => simp at hf
    subst this
    simp [subStripGo_nil]
  | succ f ih =>
    intro f' s hf hf'
    cases f' with
    | zero =>
      have : s = [] := by cases s with
        | nil => rfl
        | cons c r => simp at hf'
      subst this
      simp [subStripGo_nil]
    | succ f' =>
      cases hm : matchStripAt attr s with
      | some gt =>
        obtain ⟨g, t⟩ := gt
        have hlen := matchStripAt_some_len attr s g t hm
        simp only [subStripGo, hm]
        congr 1
        exact ih f' t (by omega) (by omega)
      | none =>
        cases s with
        | nil => rfl
        | cons c rest =>
          simp only [subStripGo, hm]
          congr 1
          exact ih f' rest (by simp at hf; omega) (by simp at hf'; omega)

theorem subStrip_of_match (attr s g t : List Char)
    (h : matchStripAt attr s = some (g, t)) :
    subStrip attr s = g ++ subStrip attr t := by
  have hlen := matchStripAt_some_len attr s g t h
  cases s with
  | nil => simp at hlen
  | cons c rest =>
    show subStripGo attr (rest.length + 1) (c :: rest) = _
    simp only [subStripGo, h]
    congr 1
    exact subStripGo_congr attr rest.length t.length t
      (by simp only [List.length_cons] at hlen; omega) le_rfl

theorem subStrip_cons_of_none (attr : List Char) (c : Char) (rest : List Char)
    (h : matchStripAt attr (c :: rest) = none) :
    subStrip attr (c :: rest) = c :: subStrip attr rest := by
  show subStripGo attr (rest.length + 1) (c :: rest) = _
  simp only [subStripGo, h]
  rfl

/-! ## C4: root-only versus global attribute stripping -/

theorem matchLit_decomp (lit : List Char) :
    ∀ s r, matchLit lit s = some r → s = lit ++ r := by
  induction lit with
  | nil =>
    intro s r h
    simp only [matchLit, Option.some.injEq] at h
    simp [h]
  | cons l lit ih =>
    intro s r h
    cases s with
    | nil => exact Option.noConfusion h
    | cons c s2 =>
      simp only [matchLit] at h
      by_cases hc : c = l
      · rw [if_pos hc] at h
        rw [List.cons_append, hc, ih s2 r h]
      · rw [if_neg hc] at h
        exact Option.noConfusion h

theorem matchLit_self (lit : List Char) :
    ∀ r, matchLit lit (lit ++ r) = some r := by
  induction lit with
  | nil => intro r; rfl
  | cons l lit ih =>
    intro r
    simp only [List.cons_append, matchLit, if_pos rfl]
    exact ih r

theorem dropWhile_first_false (p : Char → Bool) :
    ∀ (l : List Char) c t, l.dropWhile p = c :: t → p c = false := by
  intro l
  induction l with
  | nil => intro c t h; exact List.noConfusion h
  | cons a l ih =>
    intro c t h
    by_cases ha : p a = true
    · rw [List.dropWhile_cons, if_pos ha] at h
      exact ih c t h
    · rw [List.dropWhile_cons, if_neg ha] at h
      injection h with h1 _
      subst h1
      cases hpa : p a with
      | true => exact absurd hpa ha
      | false => rfl

theorem dropWhile_append_all (p : Char → Bool) :
    ∀ (u t : List Char), (∀ c ∈ u, p c = true) →
      (u ++ t).dropWhile p = t.dropWhile p := by
  intro u
  induction u with
  | nil => intro t _; rfl
  | cons a u ih =>
    intro t h
    rw [List.cons_append, List.dropWhile_cons, if_pos (h a (List.mem_cons_self _ _))]
    exact ih t fun c hc => h c (List.mem_cons_of_mem _ hc)

theorem dropWhile_eq_drop (p : Char → Bool) :
    ∀ l : List Char, l.dropWhile p = l.drop (l.takeWhile p).length := by
  intro l
  induction l with
  | nil => rfl
  | cons a l ih =>
    by_cases ha : p a = true
    · rw [List.takeWhile_cons, if_pos ha, List.dropWhile_cons, if_pos ha,
        List.length_cons, List.drop_succ_cons]
      exact ih
    · rw [List.takeWhile_cons, if_neg ha, List.dropWhile_cons, if_neg ha]
      rfl

theorem takeWhile_drop_decomp (p : Char → Bool) (l : List Char) :
    l = l.takeWhile p ++ l.drop (l.takeWhile p).length := by
  rw [← dropWhile_eq_drop p l, List.takeWhile_append_dropWhile]

theorem mem_take_of_takeWhile (p : Char → Bool) :
    ∀ (l : List Char) k c, k ≤ (l.takeWhile p).length → c ∈ l.take k →
      p c = true := by
  intro l
  induction l with
  | nil => intro k c _ hc; simp at hc
  | cons a l ih =>
    intro k c hk hc
    cases k with
    | zero => simp at hc
    | succ k =>
      by_cases ha : p a = true
      · rw [List.takeWhile_cons, if_pos ha, List.length_cons] at hk
        rw [List.take_succ_cons] at hc
        rcases List.mem_cons.mp hc with h | h
        · rw [h]; exact ha
        · exact ih k c (by omega) h
      · rw [List.takeWhile_cons, if_neg ha] at hk
        simp at hk

theorem matchAttrTail_sound (attr s : List Char) (len : ℕ)
    (h : matchAttrTail attr s = some len) :
    ∃ del tail, s = del ++ tail ∧ del.length = len ∧ IsAttrSpan attr del := by
  simp only [matchAttrTail] at h
  by_cases hws : (s.takeWhile isWsC).length = 0
  · rw [if_pos hws] at h; exact Option.noConfusion h
  · rw [if_neg hws] at h
    cases hml : matchLit attr (s.drop (s.takeWhile isWsC).length) with
    | none => rw [hml] at h; exact Option.noConfusion h
    | some r2 =>
      cases r2 with
      | nil => rw [hml] at h; exact Option.noConfusion h
      | cons q r3 =>
        simp only [hml] at h
        by_cases hq : isQuoteC q = true
        · rw [if_pos hq] at h
          by_cases hds : (r3.takeWhile isDotDigit).length = 0
          · rw [if_pos hds] at h; exact Option.noConfusion h
          · rw [if_neg hds] at h
            cases hr3 : r3.drop (r3.takeWhile isDotDigit).length with
            | nil => rw [hr3] at h; exact Option.noConfusion h
            | cons q2 tl =>
              simp only [hr3] at h
              by_cases hq2 : isQuoteC q2 = true
              · rw [if_pos hq2, Option.some.injEq] at h
                have hdec := matchLit_decomp attr _ _ hml
                have hr3d : r3 = r3.takeWhile isDotDigit ++ (q2 :: tl) := by
                  conv_lhs => rw [takeWhile_drop_decomp isDotDigit r3]
                  rw [hr3]
                have hsd : s = s.takeWhile isWsC ++
                    (attr ++ q :: (r3.takeWhile isDotDigit ++ (q2 :: tl))) := by
                  conv_lhs => rw [takeWhile_drop_decomp isWsC s]
                  rw [hdec]
                  conv_lhs => rw [hr3d]
                refine ⟨s.takeWhile isWsC ++ attr ++
                    q :: (r3.takeWhile isDotDigit ++ [q2]), tl, ?_, ?_, ?_⟩
                · conv_lhs => rw [hsd]
                  simp [List.append_assoc]
                · rw [← h]
                  simp only [List.length_append, List.length_cons,
                    List.length_nil]
                  omega
                · refine ⟨s.takeWhile isWsC, q, r3.takeWhile isDotDigit, q2,
                    by simp [List.append_assoc], ?_, ?_, hq, ?_, ?_, hq2⟩
                  · intro hc
                    rw [hc] at hws
                    exact hws rfl
                  · intro c hc
                    exact List.mem_takeWhile_imp hc
                  · intro hc
                    rw [hc] at hds
                    exact hds rfl
                  · intro c hc
                    exact List.mem_takeWhile_imp hc
              · rw [if_neg hq2] at h
                exact Option.noConfusion h
        · rw [if_neg hq] at h
          exact Option.noConfusion h

theorem findLastMatchAux_sound (attr rest : List Char) :
    ∀ n k len, findLastMatchAux attr rest n = some (k, len) →
      k ≤ n ∧ matchAttrTail attr (rest.drop k) = some len := by
  intro n
  induction n with
  | zero =>
    intro k len h
    simp only [findLastMatchAux] at h
    cases hm : matchAttrTail attr rest with
    | none => rw [hm] at h; exact Option.noConfusion h
    | some l =>
      simp only [hm, Option.some.injEq, Prod.mk.injEq] at h
      obtain ⟨hk, hl⟩ := h
      subst hk
      subst hl
      exact ⟨le_rfl, by simpa using hm⟩
  | succ n ih =>
    intro k len h
    simp only [findLastMatchAux] at h
    cases hm : matchAttrTail attr (rest.drop (n + 1)) with
    | none =>
      rw [hm] at h
      have := ih k len h
      exact ⟨by omega, this.2⟩
    | some l =>
      simp only [hm, Option.some.injEq, Prod.mk.injEq] at h
      obtain ⟨hk, hl⟩ := h
      subst hk
      subst hl
      exact ⟨le_rfl, hm⟩

theorem matchStripAt_sound (attr s g t : List Char)
    (h : matchStripAt attr s = some (g, t)) :
    ∃ del, s = g ++ (del ++ t) ∧ IsTagHead g ∧ IsAttrSpan attr del := by
  unfold matchStripAt at h
  cases hl : matchLit svgLit s with
  | none => rw [hl] at h; exact Option.noConfusion h
  | some rest =>
    simp only [hl] at h
    cases hf : findLastMatchAux attr rest
        ((rest.takeWhile fun c => !(c = '>')).length) with
    | none => simp only [hf] at h; exact Option.noConfusion h
    | some kl =>
      obtain ⟨k, len⟩ := kl
      simp only [hf, Option.some.injEq, Prod.mk.injEq] at h
      obtain ⟨hg, ht⟩ := h
      obtain ⟨hk, hmt⟩ := findLastMatchAux_sound attr rest _ k len hf
      obtain ⟨del, tail, hdt, hdlen, hspan⟩ := matchAttrTail_sound attr _ len hmt
      have hdrop : rest.drop (k + len) = tail := by
        have h2 : (rest.drop k).drop len = tail := by
          rw [hdt, ← hdlen, List.drop_left]
        rw [← h2, List.drop_drop]
      refine ⟨del, ?_, ?_, hspan⟩
      · have hs : s = svgLit ++ rest := matchLit_decomp svgLit s rest hl
        have hrest : rest = rest.take k ++ (del ++ tail) := by
          rw [← hdt, List.take_append_drop]
        rw [hs, hrest, ← List.append_assoc, hg, ← ht, hdrop]
      · refine ⟨rest.take k, hg.symm, fun c hc => ?_⟩
        have := mem_take_of_takeWhile _ rest k c hk hc
        simpa using this

theorem stripRel_subStripGo (attr : List Char) :
    ∀ n s, s.length ≤ n → StripRel attr s (subStrip attr s) := by
  intro n
  induction n with
  | zero =>
    intro s hs
    have : s = [] := by
      cases s with
      | nil => rfl
      | cons c r => simp at hs
    rw [this]
    exact StripRel.nil
  | succ n ih =>
    intro s hs
    cases hm : matchStripAt attr s with
    | some gt =>
      obtain ⟨g, t⟩ := gt
      obtain ⟨del, hdecomp, hhead, hspan⟩ := matchStripAt_sound attr s g t hm
      have hlen := matchStripAt_some_len attr s g t hm
      rw [subStrip_of_match attr s g t hm, hdecomp]
      exact StripRel.strip g del t _ hhead hspan (ih t (by omega))
    | none =>
      cases s with
      | nil => exact StripRel.nil
      | cons c rest =>
        rw [subStrip_cons_of_none attr c rest hm]
        exact StripRel.keep c rest _
          (ih rest (by simp only [List.length_cons] at hs; omega))

theorem stripRel_subStrip (attr s : List Char) :
    StripRel attr s (subStrip attr s) :=
  stripRel_subStripGo attr s.length s le_rfl

theorem matchInjectAt_sound (s g tail : List Char)
    (h : matchInjectAt s = some (g, tail)) :
    s = g ++ '>' :: tail ∧ IsTagHead g := by
  unfold matchInjectAt at h
  cases hl : matchLit svgLit s with
  | none => rw [hl] at h; exact Option.noConfusion h
  | some rest =>
    simp only [hl] at h
    cases hd : rest.dropWhile (fun c => !(c = '>')) with
    | nil => rw [hd] at h; exact Option.noConfusion h
    | cons d tl =>
      simp only [hd, Option.some.injEq, Prod.mk.injEq] at h
      obtain ⟨hg, htl⟩ := h
      have hdF := dropWhile_first_false _ rest d tl hd
      have hdgt : d = '>' := by simpa using hdF
      have hs : s = svgLit ++ rest := matchLit_decomp svgLit s rest hl
      have hrest : rest = rest.takeWhile (fun c => !(c = '>')) ++ ('>' :: tail) := by
        conv_lhs => rw [← List.takeWhile_append_dropWhile
          (fun c => !(c = '>')) rest]
        rw [hd, hdgt, htl]
      constructor
      · rw [hs, hrest, ← List.append_assoc, hg]
      · exact ⟨rest.takeWhile (fun c => !(c = '>')), hg.symm, fun c hc => by
          have := List.mem_takeWhile_imp hc
          simpa using this⟩

theorem matchInjectAt_of_tagClose (s : List Char) (h : TagCloseAt s) :
    matchInjectAt s ≠ none := by
  obtain ⟨g, tail, hs, span, hg, hspan⟩ := h
  subst hg
  subst hs
  unfold matchInjectAt
  rw [List.append_assoc]
  simp only [matchLit_self]
  rw [dropWhile_append_all _ span _ (fun c hc => by simpa using hspan c hc),
    List.dropWhile_cons, if_neg (by decide : ¬ ((fun c : Char => !(c = '>')) '>' = true))]
  simp

theorem subInjectFirst_sound (ins : List Char) :
    ∀ s, InjectsFirst ins s (subInjectFirst ins s) := by
  intro s
  induction s with
  | nil =>
    refine Or.inr ⟨rfl, ?_⟩
    intro i hc
    obtain ⟨g, tail, hs, span, hg, _⟩ := hc
    rw [List.drop_nil, hg] at hs
    have := congrArg List.length hs
    simp [svgLit] at this
  | cons c rest ih =>
    cases hm : matchInjectAt (c :: rest) with
    | some gt =>
      obtain ⟨g, tail⟩ := gt
      obtain ⟨hdec, hhead⟩ := matchInjectAt_sound (c :: rest) g tail hm
      refine Or.inl ⟨[], g, tail, by simpa using hdec, hhead, ?_, ?_⟩
      · show subInjectFirst ins (c :: rest) = [] ++ (g ++ ins ++ '>' :: tail)
        simp only [subInjectFirst, hm, List.nil_append, List.append_assoc]
      · intro i hi
        simp at hi
    | none =>
      have hnc : ¬ TagCloseAt (c :: rest) := fun hc =>
        matchInjectAt_of_tagClose _ hc hm
      have heq : subInjectFirst ins (c :: rest) = c :: subInjectFirst ins rest := by
        simp only [subInjectFirst, hm]
      rcases ih with ⟨pre, g, tail, hs, hh, hout, hmin⟩ | ⟨hout, hnone⟩
      · refine Or.inl ⟨c :: pre, g, tail, ?_, hh, ?_, ?_⟩
        · rw [List.cons_append, ← hs]
        · rw [heq, hout, List.cons_append]
        · intro i hi
          cases i with
          | zero => simpa using hnc
          | succ i =>
            have hi2 : i < pre.length := by
              simp only [List.length_cons] at hi
              omega
            simpa using hmin i hi2
      · refine Or.inr ⟨by rw [heq, hout], ?_⟩
        intro i
        cases i with
        | zero => simpa using hnc
        | succ i => simpa using hnone i

/-- C4 (counterexample).  The claim says only the first (root) `<svg>` tag
is modified and all other content passes through unchanged.  The two strip
substitutions are global (`re.sub` without `count`), so the width attribute
of a nested `<svg>` tag is deleted too: on the markup below the nested
`width="5"` disappears from the output. -/
theorem c4_nested_tag_counterexample :
    scale_svg nestedSvgIn 4 = some (nestedSvgOut, false) ∧
    occursSub ("width=\"5\"".toList) nestedSvgIn = true ∧
    occursSub ("width=\"5\"".toList) nestedSvgOut = false := by decide

/-- C4 (amended: stripping is global, not root-only).  Whenever `scale_svg`
actually rewrites its input (it returns with the flag false), the output is
obtained from the input by exactly three regex passes, each characterised
here declaratively: a pass that deletes quoted `width` attribute spans, each
deleted span standing immediately after an `<svg` tag head anywhere in the
markup (root, nested and subsequent tags alike); an identical pass for
`height` attributes; and a single injection of the new width and height
immediately before the first tag-closing bracket, with everything before
that bracket (and after it) kept verbatim and no earlier tag close skipped.
All characters outside the deleted spans and the single injection point pass
through unchanged, which is what the `keep` constructor of `StripRel` and
the verbatim context of `InjectsFirst` assert.  The trailing conjuncts
exercise the passes concretely: the nested `width="5"` really is deleted,
and explicit root `width` and `height` attributes really are stripped and
replaced. -/
theorem c4_strip_any_tag_amended (svg out : List Char) (t : ℕ)
    (h : scale_svg svg t = some (out, false)) :
    (∃ th, svgTargetHeight svg t = some th ∧
      ∃ mid1 mid2, StripRel widthLit svg mid1 ∧ StripRel heightLit mid1 mid2 ∧
        InjectsFirst (injAttrs t th) mid2 out) ∧
    scale_svg nestedSvgIn 4 = some (nestedSvgOut, false) ∧
    occursSub ("width=\"5\"".toList) nestedSvgOut = false ∧
    scale_svg rootAttrSvg 10 = some (rootAttrOut, false) := by
  refine ⟨?_, by decide, by decide, by decide⟩
  cases hg : get_svg_width svg with
  | none =>
    simp only [scale_svg, hg] at h
    exact Option.noConfusion h
  | some o =>
    by_cases hug : upscaleGuard o t
    · simp only [scale_svg, hg, if_pos hug, Option.some.injEq,
        Prod.mk.injEq] at h
      exact absurd h.2 (by decide)
    · cases hth : svgTargetHeight svg t with
      | none =>
        simp only [scale_svg, hg, if_neg hug, hth] at h
        exact Option.noConfusion h
      | some th =>
        simp only [scale_svg, hg, if_neg hug, hth, Option.some.injEq,
          Prod.mk.injEq, and_true] at h
        refine ⟨th, rfl, subStrip widthLit svg,
          subStrip heightLit (subStrip widthLit svg),
          stripRel_subStrip _ _, stripRel_subStrip _ _, ?_⟩
        rw [← h]
        exact subInjectFirst_sound _ _

/-- Witness for C4: the characterisation applied to the nested markup at
target width 4. -/
theorem c4_strip_any_tag_witness :
    (∃ th, svgTargetHeight nestedSvgIn 4 = some th ∧
      ∃ mid1 mid2, StripRel widthLit nestedSvgIn mid1 ∧
        StripRel heightLit mid1 mid2 ∧
        InjectsFirst (injAttrs 4 th) mid2 nestedSvgOut) ∧
    scale_svg nestedSvgIn 4 = some (nestedSvgOut, false) ∧
    occursSub ("width=\"5\"".toList) nestedSvgOut = false ∧
    scale_svg rootAttrSvg 10 = some (rootAttrOut, false) :=
  c4_strip_any_tag_amended nestedSvgIn nestedSvgOut 4 (by decide)

/-! ## C8: error conditions of the orchestrator -/

theorem finishRaster_shape (alt mime : List Char) (bs : List ℕ)
    (ww : Option ℕ) :
    (∃ a u, finishRaster alt mime bs ww = .ok (mdLine a u)) ∨
    finishRaster alt mime bs ww = .error .otherRaise := by
  cases ww with
  | none =>
    exact .inl ⟨alt, dataColon ++ mime ++ base64Comma ++ b64encode bs,
      by simp only [finishRaster]⟩
  | some w =>
    cases hwrap : wrap_base64 (b64encode bs) w with
    | none => exact .inr (by simp only [finishRaster, hwrap])
    | some e =>
      exact .inl ⟨alt, dataColon ++ mime ++ base64Comma ++ e,
        by simp only [finishRaster, hwrap]⟩

theorem embed_shape (fs : FileSys) (ops : RasterOps) (p : List Char)
    (a : Option (List Char)) (mw ww : Option ℕ)
    (hp : fs.pathExists p = true) (mime : List Char)
    (hm : mimeLookup (lowerAscii (pathSuffix p)) = some mime) :
    (∃ alt uri, embed_image fs ops p a mw ww = .ok (mdLine alt uri)) ∨
    embed_image fs ops p a mw ww = .error .otherRaise := by
  by_cases hsvg : lowerAscii (pathSuffix p) = ".svg".toList
  · cases hmw : pyOptPos mw with
    | none =>
      exact .inl ⟨altOf a (pathStem p),
        dataColon ++ mime ++ ',' :: quoteUrl (fs.readText p),
        by simp only [embed_image, hp, hm, hmw, if_pos hsvg]; simp⟩
    | some m =>
      cases hsc : scale_svg (fs.readText p) m with
      | none =>
        refine .inr ?_
        simp only [embed_image, hp, hm, hmw, if_pos hsvg, hsc]
        simp
      | some pr =>
        exact .inl ⟨altOf a (pathStem p),
          dataColon ++ mime ++ ',' :: quoteUrl pr.1,
          by simp only [embed_image, hp, hm, hmw, if_pos hsvg, hsc]; simp⟩
  · cases hmw : pyOptPos mw with
    | none =>
      have : embed_image fs ops p a mw ww =
          finishRaster (altOf a (pathStem p)) mime (fs.readBytes p) ww := by
        simp only [embed_image, hp, hm, hmw, if_neg hsvg]
        simp
      rw [this]
      exact finishRaster_shape _ _ _ _
    | some m =>
      cases hsc : scale_raster ops (fs.readBytes p) m mime with
      | none =>
        refine .inr ?_
        simp only [embed_image, hp, hm, hmw, if_neg hsvg, hsc]
        simp
      | some pr =>
        have : embed_image fs ops p a mw ww =
            finishRaster (altOf a (pathStem p)) mime pr.1 ww := by
          simp only [embed_image, hp, hm, hmw, if_neg hsvg, hsc]
          simp
        rw [this]
        exact finishRaster_shape _ _ _ _

/-- C8 (counterexample).  The claim says every existing path with a
supported extension yields a Markdown line.  An existing `.svg` file whose
viewBox width is zero makes `embed_image` raise a division error when a
maximum width is requested: the call fails even though the path exists and
the extension is supported. -/
theorem c8_scale_raise_counterexample :
    fsZero.pathExists ("img.svg".toList) = true ∧
    mimeLookup (lowerAscii (pathSuffix ("img.svg".toList))) =
      some ("image/svg+xml".toList) ∧
    embed_image fsZero opsSmall ("img.svg".toList) none (some 50) none =
      .error .otherRaise := by decide

/-- C8 (amended).  `embed_image` fails with the file-not-found error exactly
when the path does not exist; for an existing path it fails with the
unsupported-format error (naming the supported set) exactly when the
lower-cased extension is outside the table; for an existing supported path
neither of those two errors can occur, and every successful result is a
Markdown image line, but the call may still fail with an exception raised
during scaling or wrapping (for example a division by zero on a zero-width
SVG). -/
theorem c8_error_conditions_amended (fs : FileSys) (ops : RasterOps)
    (p : List Char) (a : Option (List Char)) (mw ww : Option ℕ) :
    (fs.pathExists p = false →
      embed_image fs ops p a mw ww = .error (.fileNotFound (fnfMsg p))) ∧
    (∀ m, embed_image fs ops p a mw ww = .error (.fileNotFound m) →
      fs.pathExists p = false) ∧
    (fs.pathExists p = true → mimeLookup (lowerAscii (pathSuffix p)) = none →
      embed_image fs ops p a mw ww =
        .error (.unsupportedFormat (unsupMsg (lowerAscii (pathSuffix p))))) ∧
    (∀ m, embed_image fs ops p a mw ww = .error (.unsupportedFormat m) →
      fs.pathExists p = true ∧ mimeLookup (lowerAscii (pathSuffix p)) = none) ∧
    (∀ r, embed_image fs ops p a mw ww = .ok r →
      ∃ alt uri, r = mdLine alt uri) := by
  refine ⟨?_, ?_, ?_, ?_, ?_⟩
  · intro h
    unfold embed_image
    rw [if_pos h]
  · intro m h
    by_cases hp : fs.pathExists p = true
    · exfalso
      cases hm : mimeLookup (lowerAscii (pathSuffix p)) with
      | none =>
        unfold embed_image at h
        rw [if_neg (by simp [hp]), hm] at h
        simp at h
      | some mime =>
        rcases embed_shape fs ops p a mw ww hp mime hm with ⟨alt, uri, hr⟩ | hr
        · rw [hr] at h; exact Except.noConfusion h
        · rw [hr] at h; simp at h
    · revert hp
      cases fs.pathExists p <;> simp
  · intro hp hm
    simp only [embed_image, hp, hm]
    simp
  · intro m h
    by_cases hp : fs.pathExists p = true
    · refine ⟨hp, ?_⟩
      cases hm : mimeLookup (lowerAscii (pathSuffix p)) with
      | none => rfl
      | some mime =>
        exfalso
        rcases embed_shape fs ops p a mw ww hp mime hm with ⟨alt, uri, hr⟩ | hr
        · rw [hr] at h; exact Except.noConfusion h
        · rw [hr] at h; simp at h
    · exfalso
      have hp' : fs.pathExists p = false := by
        revert hp; cases fs.pathExists p <;> simp
      unfold embed_image at h
      rw [if_pos hp'] at h
      simp at h
  · intro r h
    by_cases hp : fs.pathExists p = true
    · cases hm : mimeLookup (lowerAscii (pathSuffix p)) with
      | none =>
        unfold embed_image at h
        rw [if_neg (by simp [hp]), hm] at h
        exact Except.noConfusion h
      | some mime =>
        rcases embed_shape fs ops p a mw ww hp mime hm with ⟨alt, uri, hr⟩ | hr
        · rw [hr] at h
          exact ⟨alt, uri, (Except.ok.inj h).symm⟩
        · rw [hr] at h; exact Except.noConfusion h
    · have hp' : fs.pathExists p = false := by
        revert hp; cases fs.pathExists p <;> simp
      unfold embed_image at h
      rw [if_pos hp'] at h
      exact Except.noConfusion h

/-- Witness for C8: a missing file yields the file-not-found error; an
existing `.bmp` file yields the unsupported-format error naming the
supported set. -/
theorem c8_error_conditions_witness :
    embed_image fsNone opsSmall ("x.png".toList) none none none =
      .error (.fileNotFound (fnfMsg ("x.png".toList))) ∧
    embed_image fsPng opsSmall ("x.bmp".toList) none none none =
      .error (.unsupportedFormat
        (unsupMsg (lowerAscii (pathSuffix ("x.bmp".toList))))) :=
  ⟨(c8_error_conditions_amended fsNone opsSmall ("x.png".toList)
      none none none).1 (by decide),
   (c8_error_conditions_amended fsPng opsSmall ("x.bmp".toList)
      none none none).2.2.1 (by decide) (by decide)⟩

/-! ## C9: newline confinement -/

theorem b64Char_ne_nl (n : ℕ) : b64Char n ≠ '\n' := by
  have h64 : ∀ i, i < 64 → B64ALPHA.getD i 'A' ≠ '\n' := by decide
  exact h64 (n % 64) (Nat.mod_lt _ (by omega))

theorem nl_not_mem_b64encode : ∀ n (bs : List ℕ), bs.length ≤ n →
    '\n' ∉ b64encode bs := by
  intro n
  induction n with
  | zero =>
    intro bs hb
    have : bs = [] := by cases bs with
      | nil => rfl
      | cons x xs => simp at hb
    subst this
    simp [b64encode]
  | succ n ih =>
    intro bs hb
    rcases bs with _ | ⟨a, _ | ⟨b, _ | ⟨c, rest⟩⟩⟩
    · simp [b64encode]
    · intro hm
      simp only [b64encode, List.mem_cons, List.not_mem_nil, or_false] at hm
      rcases hm with h | h | h | h
      · exact b64Char_ne_nl _ h.symm
      · exact b64Char_ne_nl _ h.symm
      · exact absurd h (by decide)
      · exact absurd h (by decide)
    · intro hm
      simp only [b64encode, List.mem_cons, List.not_mem_nil, or_false] at hm
      rcases hm with h | h | h | h
      · exact b64Char_ne_nl _ h.symm
      · exact b64Char_ne_nl _ h.symm
      · exact b64Char_ne_nl _ h.symm
      · exact absurd h (by decide)
    · intro hm
      simp only [b64encode, List.mem_cons] at hm
      rcases hm with h | h | h | h | h
      · exact b64Char_ne_nl _ h.symm
      · exact b64Char_ne_nl _ h.symm
      · exact b64Char_ne_nl _ h.symm
      · exact b64Char_ne_nl _ h.symm
      · exact ih rest (by simp at hb; omega) h

theorem nl_not_mem_pctByte (b : ℕ) : '\n' ∉ pctByte b := by
  have h16 : ∀ i, i < 16 → HEXU.getD i '0' ≠ '\n' := by decide
  intro hm
  simp only [pctByte, List.mem_cons, List.not_mem_nil, or_false] at hm
  rcases hm with h | h | h
  · exact absurd h (by decide)
  · exact h16 (b / 16 % 16) (Nat.mod_lt _ (by omega)) h.symm
  · exact h16 (b % 16) (Nat.mod_lt _ (by omega)) h.symm

theorem nl_not_mem_quoteUrl (s : List Char) : '\n' ∉ quoteUrl s := by
  intro hm
  simp only [quoteUrl, List.mem_flatMap] at hm
  obtain ⟨c, _, hc⟩ := hm
  by_cases hsafe : isUrlSafe c
  · rw [if_pos hsafe] at hc
    simp only [List.mem_singleton] at hc
    subst hc
    exact absurd hsafe (by decide)
  · rw [if_neg hsafe] at hc
    simp only [List.mem_flatMap] at hc
    obtain ⟨b, _, hb⟩ := hc
    exact nl_not_mem_pctByte b hb

theorem mimeLookup_no_nl (s m : List Char) (h : mimeLookup s = some m) :
    '\n' ∉ m := by
  unfold mimeLookup at h
  split at h
  · cases h; decide
  · split at h
    · cases h; decide
    · split at h
      · cases h; decide
      · split at h
        · cases h; decide
        · split at h
          · cases h; decide
          · exact Option.noConfusion h

theorem nl_not_mem_mdLine (alt uri : List Char) (ha : '\n' ∉ alt)
    (hu : '\n' ∉ uri) : '\n' ∉ mdLine alt uri := by
  intro hm
  simp only [mdLine, List.mem_cons, List.mem_append] at hm
  rcases hm with h | h | h | h | h | h | h
  · exact absurd h (by decide)
  · exact absurd h (by decide)
  · exact ha h
  · exact absurd h (by decide)
  · exact absurd h (by decide)
  · exact hu h
  · simp at h

/-- C9 (counterexample).  The claim says a successful no-wrap result never
contains a newline; but the alt text is interpolated verbatim, so an alt
text containing a newline produces one outside the payload. -/
theorem c9_alt_newline_counterexample :
    embed_image fsPng opsSmall ("a.png".toList) (some ("x\ny".toList))
      none none = .ok ("![x\ny](data:image/png;base64,QQ==)".toList) ∧
    '\n' ∈ "![x\ny](data:image/png;base64,QQ==)".toList ∧
    (none : Option ℕ) = none := by decide

theorem nl_not_mem_raster_uri (mime : List Char) (bs : List ℕ)
    (hm : '\n' ∉ mime) :
    '\n' ∉ dataColon ++ mime ++ base64Comma ++ b64encode bs := by
  intro hmem
  simp only [List.mem_append] at hmem
  rcases hmem with ((h | h) | h) | h
  · exact absurd h (by decide)
  · exact hm h
  · exact absurd h (by decide)
  · exact nl_not_mem_b64encode bs.length bs le_rfl h

theorem nl_not_mem_svg_uri (mime svg : List Char) (hm : '\n' ∉ mime) :
    '\n' ∉ dataColon ++ mime ++ ',' :: quoteUrl svg := by
  intro hmem
  simp only [List.mem_append, List.mem_cons] at hmem
  rcases hmem with (h | h) | h | h
  · exact absurd h (by decide)
  · exact hm h
  · exact absurd h (by decide)
  · exact nl_not_mem_quoteUrl svg h

theorem finishRaster_c9 (alt mime : List Char) (bs : List ℕ)
    (ww : Option ℕ) (r : List Char) (halt : '\n' ∉ alt) (hmn : '\n' ∉ mime)
    (h : finishRaster alt mime bs ww = .ok r) :
    (ww = none → '\n' ∉ r) ∧
    ('\n' ∉ r ∨ ∃ mime2 payload, r = mdB64Line alt mime2 payload ∧
      '\n' ∉ mime2) := by
  cases ww with
  | none =>
    simp only [finishRaster, Except.ok.injEq] at h
    subst h
    have hline := nl_not_mem_mdLine _ _ halt (nl_not_mem_raster_uri mime bs hmn)
    exact ⟨fun _ => hline, .inl hline⟩
  | some w =>
    cases hwrap : wrap_base64 (b64encode bs) w with
    | none =>
      simp only [finishRaster, hwrap] at h
      exact absurd h (by simp)
    | some e =>
      simp only [finishRaster, hwrap, Except.ok.injEq] at h
      subst h
      exact ⟨fun hc => Option.noConfusion hc, .inr ⟨mime, e, rfl, hmn⟩⟩

/-- C9 (amended: the alt text actually used must itself be newline-free,
which the claim implicitly assumed).  For every successful call whose alt
text (given or derived from the stem) has no newline: without a wrap width
the returned line contains no newline at all; in general either the line is
newline-free, or it is exactly `![alt](data:MIME;base64,PAYLOAD)` with the
actual alt text, a newline-free MIME string, and some payload, so every
newline lies inside the payload portion of the data URI, never in the alt
text, the MIME prefix or the Markdown syntax. -/
theorem c9_newline_confinement_amended (fs : FileSys) (ops : RasterOps)
    (p : List Char) (a : Option (List Char)) (mw ww : Option ℕ)
    (r : List Char) (halt : '\n' ∉ altOf a (pathStem p))
    (h : embed_image fs ops p a mw ww = .ok r) :
    (ww = none → '\n' ∉ r) ∧
    ('\n' ∉ r ∨ ∃ mime payload,
      r = mdB64Line (altOf a (pathStem p)) mime payload ∧ '\n' ∉ mime) := by
  by_cases hp : fs.pathExists p = true
  · cases hm : mimeLookup (lowerAscii (pathSuffix p)) with
    | none =>
      unfold embed_image at h
      rw [if_neg (by simp [hp]), hm] at h
      exact absurd h (by simp)
    | some mime =>
      have hmn : '\n' ∉ mime := mimeLookup_no_nl _ _ hm
      by_cases hsvg : lowerAscii (pathSuffix p) = ".svg".toList
      · cases hmw : pyOptPos mw with
        | none =>
          simp only [embed_image, hp, hm, hmw, if_pos hsvg] at h
          rw [if_neg (by simp : ¬ (true = false))] at h
          simp only [Except.ok.injEq] at h
          subst h
          have hline := nl_not_mem_mdLine _ _ halt
            (nl_not_mem_svg_uri mime (fs.readText p) hmn)
          exact ⟨fun _ => hline, .inl hline⟩
        | some m =>
          cases hsc : scale_svg (fs.readText p) m with
          | none =>
            simp only [embed_image, hp, hm, hmw, if_pos hsvg, hsc] at h
            rw [if_neg (by simp : ¬ (true = false))] at h
            exact absurd h (by simp)
          | some pr =>
            simp only [embed_image, hp, hm, hmw, if_pos hsvg, hsc] at h
            rw [if_neg (by simp : ¬ (true = false))] at h
            simp only [Except.ok.injEq] at h
            subst h
            have hline := nl_not_mem_mdLine _ _ halt
              (nl_not_mem_svg_uri mime pr.1 hmn)
            exact ⟨fun _ => hline, .inl hline⟩
      · cases hmw : pyOptPos mw with
        | none =>
          have hfr : embed_image fs ops p a mw ww =
              finishRaster (altOf a (pathStem p)) mime (fs.readBytes p) ww := by
            simp only [embed_image, hp, hm, hmw, if_neg hsvg]
            simp
          rw [hfr] at h
          exact finishRaster_c9 _ _ _ _ _ halt hmn h
        | some m =>
          cases hsc : scale_raster ops (fs.readBytes p) m mime with
          | none =>
            simp only [embed_image, hp, hm, hmw, if_neg hsvg, hsc] at h
            exact absurd h (by simp)
          | some pr =>
            have hfr : embed_image fs ops p a mw ww =
                finishRaster (altOf a (pathStem p)) mime pr.1 ww := by
              simp only [embed_image, hp, hm, hmw, if_neg hsvg, hsc]
              simp
            rw [hfr] at h
            exact finishRaster_c9 _ _ _ _ _ halt hmn h
  · have hp' : fs.pathExists p = false := by
      revert hp; cases fs.pathExists p <;> simp
    unfold embed_image at h
    rw [if_pos hp'] at h
    exact absurd h (by simp)

/-- Witness for C9: a concrete PNG embedding wrapped at width 2, whose
returned line carries a newline inside the payload only. -/
theorem c9_newline_confinement_witness :
    ((some 2 : Option ℕ) = none →
      '\n' ∉ "![a](data:image/png;base64,QQ\n==)".toList) ∧
    ('\n' ∉ "![a](data:image/png;base64,QQ\n==)".toList ∨
      ∃ mime payload, "![a](data:image/png;base64,QQ\n==)".toList =
        mdB64Line (altOf none (pathStem ("a.png".toList))) mime payload ∧
        '\n' ∉ mime) :=
  c9_newline_confinement_amended fsPng opsSmall ("a.png".toList) none none
    (some 2) ("![a](data:image/png;base64,QQ\n==)".toList) (by decide)
    (by decide)

/-! ## C10: empty alt text -/

/-- C10: calling `embed_image` with an empty alt text produces exactly the
same line as calling it with no alt text, because Python `or` treats the
empty string as falsy and substitutes the filename stem. -/
theorem c10_empty_alt_defaults_stem (fs : FileSys) (ops : RasterOps)
    (p : List Char) (mw ww : Option ℕ) :
    embed_image fs ops p (some []) mw ww = embed_image fs ops p none mw ww ∧
    altOf (some []) (pathStem p) = pathStem p :=
  ⟨rfl, rfl⟩

/-- Witness for C1: the amended theorem applied at `S = "abcde"`, `W = 2`. -/
theorem c1_wrap_lines_witness :
    ∃ out, wrap_base64 ("abcde".toList) 2 = some out ∧
      ("abcde".toList = [] → out = []) ∧
      ("abcde".toList ≠ [] →
        (splitNl out).length = (("abcde".toList).length + 2 - 1) / 2 ∧
        (∀ l ∈ (splitNl out).dropLast, l.length = 2) ∧
        (∀ l, (splitNl out).getLast? = some l → 1 ≤ l.length ∧ l.length ≤ 2) ∧
        (splitNl out).flatten = "abcde".toList) :=
  c1_wrap_lines_amended ("abcde".toList) 2 (by decide) (by decide)

end MdImgUri
